import Mathlib

set_option maxHeartbeats 1600000

/-!
Shallow embedding of the request-routing and directory-index engine of the
serve static file server (main.go): URL mount-path normalization, dot-file
filtering, index routing and directory-listing construction.

Go strings are modelled as `List Char`; every byte-wise operation the code
performs (split on slash, affix tests, lexicographic comparison) coincides
with the character-wise one on valid UTF-8 input.  URL percent-decoding is
modelled as the identity, which is faithful for every path free of percent
escapes and control characters.
-/

namespace Serve

/-- Go strings.HasPrefix: the second list is a leading affix of the first. -/
def hasPfx : List Char → List Char → Bool
  | _, [] => true
  | [], _ :: _ => false
  | a :: as, b :: bs => if a = b then hasPfx as bs else false

/-- Go strings.HasSuffix: the second list is a trailing affix of the first. -/
def hasSfx (s p : List Char) : Bool :=
  hasPfx s.reverse p.reverse

/-- Go strings.TrimPrefix: remove the leading affix when present. -/
def trimPfx (s p : List Char) : List Char :=
  if hasPfx s p then s.drop p.length else s

/-- Go strings.Split(s, "/"): split on every slash, keeping empty parts. -/
def splitSlash : List Char → List (List Char)
  | [] => [[]]
  | c :: rest =>
    if c = '/' then [] :: splitSlash rest
    else
      match splitSlash rest with
      | [] => [[c]]
      | h :: t => (c :: h) :: t

/-- Go string comparison a < b (byte-wise lexicographic). -/
def lexLt : List Char → List Char → Bool
  | _, [] => false
  | [], _ :: _ => true
  | a :: as, b :: bs => if a < b then true else if b < a then false else lexLt as bs

/-- Go strings.Join(parts, "/"). -/
def joinSlash : List (List Char) → List Char
  | [] => []
  | [x] => x
  | x :: y :: t => x ++ '/' :: joinSlash (y :: t)

/-! ### path.Clean (Go standard library, used by path.Join / url.JoinPath) -/

/-- The index search of path.Clean's backtracking step: starting from
position w, walk left while the position is above dotdot and the character
there is not a slash. -/
def btLoop (out : List Char) (dotdot : Nat) : Nat → Nat
  | 0 => 0
  | w + 1 =>
    if w + 1 > dotdot ∧ out.getD (w + 1) ' ' ≠ '/' then btLoop out dotdot w
    else w + 1

/-- path.Clean's ".." backtracking: drop the final path element of the
output buffer, never shortening below position dotdot. -/
def backtrack (dotdot : Nat) (out : List Char) : List Char :=
  out.take (btLoop out dotdot (out.length - 1))

/-- The main loop of Go path.Clean, with the remaining input as the last
argument and explicit fuel (one unit per loop iteration; each iteration
consumes at least one input character). -/
def cleanLoop : Nat → Bool → Nat → List Char → List Char → List Char
  | 0, _, _, out, _ => out
  | _ + 1, _, _, out, [] => out
  | fuel + 1, rooted, dotdot, out, c :: rest =>
    if c = '/' then
      cleanLoop fuel rooted dotdot out rest
    else if c = '.' ∧ (rest = [] ∨ rest.head? = some '/') then
      cleanLoop fuel rooted dotdot out rest
    else if c = '.' ∧ rest.head? = some '.' ∧ (rest.tail = [] ∨ rest.tail.head? = some '/') then
      if out.length > dotdot then
        cleanLoop fuel rooted dotdot (backtrack dotdot out) rest.tail
      else if ¬ rooted then
        let out2 := (if out.length > 0 then out ++ ['/'] else out) ++ ['.', '.']
        cleanLoop fuel rooted out2.length out2 rest.tail
      else
        cleanLoop fuel rooted dotdot out rest.tail
    else
      let out2 := if (rooted ∧ out.length ≠ 1) ∨ (¬ rooted ∧ out.length ≠ 0) then out ++ ['/'] else out
      cleanLoop fuel rooted dotdot (out2 ++ (c :: rest).takeWhile (fun x => x ≠ '/'))
        ((c :: rest).dropWhile (fun x => x ≠ '/'))

/-- Go path.Clean: shortest lexically equivalent path. -/
def clean (p : List Char) : List Char :=
  if p = [] then ['.']
  else
    let rooted := p.head? = some '/'
    let s0 := if rooted then p.drop 1 else p
    let out := cleanLoop (s0.length + 1) rooted (if rooted then 1 else 0)
      (if rooted then ['/'] else []) s0
    if out = [] then ['.'] else out

/-- The string Go path.Join builds before cleaning: the elements joined by
single slashes, skipping empty elements only while the buffer is empty. -/
def joinBuf (elems : List (List Char)) : List Char :=
  elems.foldl
    (fun buf e =>
      if buf.length > 0 ∨ e ≠ [] then
        (if buf.length > 0 then buf ++ '/' :: e else buf ++ e)
      else buf)
    []

/-- Go path.Join: empty when all elements are empty, otherwise the cleaned
slash-join of the elements. -/
def pathJoin (elems : List (List Char)) : List Char :=
  if elems.foldr (fun e n => e.length + n) 0 = 0 then [] else clean (joinBuf elems)

/-! ### normalizePrefix (main.go)

The code runs url.JoinPath(base, raw, "/") against a base URL of the form
http://localhost:PORT (whose path component is empty) and then returns the
path component of the parsed result.  With percent-decoding modelled as the
identity this is: path.Join("/", raw, "/") with its leading slash removed
(the relative branch of URL.JoinPath), a trailing slash restored because the
last element ends in one, and a leading slash restored by URL.String because
the host is nonempty. -/

/-- Go normalizePrefix(base, raw) for a base URL with an empty path component,
with percent-decoding modelled as the identity. -/
def normalizePfx (raw : List Char) : List Char :=
  let j := pathJoin [['/'], raw, ['/']]
  let q := j.drop 1
  let q2 := if ¬ hasSfx q ['/'] then q ++ ['/'] else q
  if hasPfx q2 ['/'] then q2 else '/' :: q2

/-! ### Data model (main.go) -/

/-- One child returned by os.ReadDir: base name and directory flag. -/
structure DirItem where
  name : List Char
  isDir : Bool
deriving DecidableEq

/-- Classification of a filesystem error, as the code distinguishes them:
os.ErrNotExist versus anything else (whose text is surfaced in a 500). -/
inductive FsErr where
  | notExist
  | other (msg : List Char)
deriving DecidableEq

/-- The filesystem as the handler observes it: os.ReadDir on a directory
path, the error of os.Open on a file path (none meaning the open succeeds)
and whether os.Stat fails with os.ErrNotExist. -/
structure Fs where
  readDir : List Char → Except FsErr (List DirItem)
  openErr : List Char → Option FsErr
  statErrNotExist : List Char → Bool

/-- Entry (main.go): one listed item with Name, Path and Type. -/
structure Entry where
  name : List Char
  path : List Char
  type : List Char
deriving DecidableEq

/-- IndexData (main.go): the data handed to the listing template. -/
structure IndexData where
  dir : List Char
  parents : List Entry
  entries : List Entry
deriving DecidableEq

def fileType : List Char := "file".toList
def folderType : List Char := "folder".toList
def idxName : List Char := "index.html".toList
def slashIdx : List Char := "/index.html".toList
def ddName : List Char := "..".toList
def ctHtml : List Char := "text/html; charset=utf-8".toList
def ctText : List Char := "text/plain; charset=utf-8".toList

/-- The server configuration picked up by withIndex: root directory, mount
path, and the Dot / ExplicitIndex / Spa flags. -/
structure Cfg where
  dir : List Char
  pfx : List Char
  dot : Bool
  expIdx : Bool
  spa : Bool

/-- How the handler disposes of one request.  delegate means the request is
handed to the wrapped raw file responder (the mux / http.FileServer);
serveIdxFile streams the named file with status 200 and content-type
text/html; serveRootIdx is http.ServeFile of the root index.html;
listing renders the template with status 200 and content-type text/html. -/
inductive Outcome where
  | notFound
  | internalErr (msg : List Char)
  | serveIdxFile (physPath : List Char)
  | serveRootIdx (physPath : List Char)
  | delegate
  | listing (data : IndexData)
deriving DecidableEq

/-- The status code the handler itself writes (none when the decision is
delegated downstream). -/
def statusOf : Outcome → Option Nat
  | .notFound => some 404
  | .internalErr _ => some 500
  | .serveIdxFile _ => some 200
  | .serveRootIdx _ => none
  | .delegate => none
  | .listing _ => some 200

/-- The Content-Type header the handler itself sets (none when delegated). -/
def ctypeOf : Outcome → Option (List Char)
  | .notFound => some ctText
  | .internalErr _ => some ctText
  | .serveIdxFile _ => some ctHtml
  | .serveRootIdx _ => none
  | .delegate => none
  | .listing _ => some ctHtml

/-! ### withIndex (main.go) -/

/-- Go filepath.Base. -/
def baseName (p : List Char) : List Char :=
  if p = [] then ['.']
  else
    let q := (p.reverse.dropWhile (fun c => c = '/')).reverse
    let r := (q.reverse.takeWhile (fun c => c ≠ '/')).reverse
    if r = [] then ['/'] else r

/-- The stripped path: "/" + TrimPrefix(request path, mount path). -/
def urlPathOf (c : Cfg) (reqPath : List Char) : List Char :=
  '/' :: trimPfx reqPath c.pfx

/-- The entry-building scan of withIndex, including the early break taken on
an index.html file when ExplicitIndex is off (the breaking item is not
appended, matching the Go loop).  Returns (hasIndex, entries). -/
def scanEntries (pfx urlPath : List Char) (dot expIdx : Bool) :
    List DirItem → Bool × List Entry
  | [] => (false, [])
  | item :: rest =>
    if ¬ dot ∧ hasPfx item.name ['.'] then
      scanEntries pfx urlPath dot expIdx rest
    else
      let p0 := pathJoin [pfx, urlPath, item.name]
      if item.isDir then
        let r := scanEntries pfx urlPath dot expIdx rest
        (r.1, ⟨item.name, p0 ++ ['/'], folderType⟩ :: r.2)
      else if item.name = idxName then
        if expIdx then
          let r := scanEntries pfx urlPath dot expIdx rest
          (true, ⟨item.name, p0, fileType⟩ :: r.2)
        else (true, [])
      else
        let r := scanEntries pfx urlPath dot expIdx rest
        (r.1, ⟨item.name, p0, fileType⟩ :: r.2)

/-- The comparison handed to sort.Slice: folders before files, then the Go
string order on names. -/
def entryLess (a b : Entry) : Bool :=
  if a.type = folderType ∧ b.type ≠ folderType then true
  else if b.type = folderType ∧ a.type ≠ folderType then false
  else lexLt a.name b.name

/-- Insert an entry into an already ordered list (sort.Slice is modelled by
insertion sort; ties in the comparison only arise between structurally equal
entries, so every correct sort produces this output). -/
def insertEntry (e : Entry) : List Entry → List Entry
  | [] => [e]
  | x :: xs => if entryLess x e then x :: insertEntry e xs else e :: x :: xs

def sortEntries (l : List Entry) : List Entry :=
  l.foldr insertEntry []

/-- The breadcrumb loop of withIndex over the already truncated parts list:
one folder entry per part, the empty root part relabelled with the base
name of the served directory. -/
def parentEntriesOf (pfx base : List Char) (pp : List (List Char)) : List Entry :=
  (List.range pp.length).map fun i =>
    { name := if pp.getD i [] = [] then base else pp.getD i []
      path := pathJoin [pfx, joinSlash (pp.take (i + 1))] ++ ['/']
      type := folderType }

/-- The tail of withIndex once the directory scan supplied the raw entries:
sort, prepend the synthetic parent when not at the root, build breadcrumbs. -/
def listingOf (c : Cfg) (urlPath : List Char) (ents : List Entry) : IndexData :=
  { dir := pathJoin [baseName c.dir, urlPath]
    parents := parentEntriesOf c.pfx (baseName c.dir) ((splitSlash urlPath).dropLast)
    entries :=
      if urlPath ≠ ['/'] then
        ⟨ddName, pathJoin [c.pfx, urlPath, ddName], folderType⟩ :: sortEntries ents
      else sortEntries ents }

/-- The handler returned by withIndex (main.go): mount check, the
ExplicitIndex branch, the non-directory branch with the Spa fallback, and
the directory branch reading the directory and deciding between delegation
to the implicit index and a rendered listing. -/
def withIndexRoute (c : Cfg) (fs : Fs) (reqPath : List Char) : Outcome :=
  if ¬ hasPfx reqPath c.pfx then .notFound
  else if hasSfx (urlPathOf c reqPath) slashIdx ∧ c.expIdx then
    match fs.openErr (pathJoin [c.dir, urlPathOf c reqPath]) with
    | some .notExist => .notFound
    | some (.other m) => .internalErr m
    | none => .serveIdxFile (pathJoin [c.dir, urlPathOf c reqPath])
  else if ¬ hasSfx (urlPathOf c reqPath) ['/'] then
    if c.spa ∧ fs.statErrNotExist (pathJoin [c.dir, urlPathOf c reqPath]) then
      .serveRootIdx (pathJoin [c.dir, idxName])
    else .delegate
  else
    match fs.readDir (pathJoin [c.dir, urlPathOf c reqPath]) with
    | .error .notExist => .notFound
    | .error (.other m) => .internalErr m
    | .ok list =>
      if (scanEntries c.pfx (urlPathOf c reqPath) c.dot c.expIdx list).1 ∧ ¬ c.expIdx then
        .delegate
      else .listing (listingOf c (urlPathOf c reqPath)
        (scanEntries c.pfx (urlPathOf c reqPath) c.dot c.expIdx list).2)

/-- The test excludeDot applies to the raw request path: some part of the
slash-split path begins with a dot. -/
def dotSegChk (p : List Char) : Bool :=
  (splitSlash p).any fun part => hasPfx part ['.']

/-- excludeDot (main.go), wrapping an arbitrary downstream handler. -/
def excludeDotH (next : List Char → Outcome) (reqPath : List Char) : Outcome :=
  if dotSegChk reqPath then .notFound else next reqPath

/-- Serve.handler (main.go) without the external CORS wrapper: withIndex
around the mux, gated by excludeDot exactly when Dot is off. -/
def serveH (c : Cfg) (fs : Fs) : List Char → Outcome :=
  if c.dot then withIndexRoute c fs else excludeDotH (withIndexRoute c fs)

/-! ### Specification-side notions

These definitions follow the spec's wording (eager membership of index.html,
slash-delimited path segments, dot-dot resolution) and are compared with the
code-level definitions above. -/

/-- The nonempty slash-delimited segments of a path. -/
def segs (s : List Char) : List (List Char) :=
  (splitSlash s).filter fun x => ¬ x.isEmpty

/-- The effect of one path element on the stack of resolved elements of a
rooted path: "." is dropped, ".." pops, anything else is pushed. -/
def step (stack : List (List Char)) (seg : List Char) : List (List Char) :=
  if seg = ['.'] then stack
  else if seg = ['.', '.'] then stack.dropLast
  else stack ++ [seg]

/-- The resolved element stack of a rooted path with the given tail. -/
def resolve (s : List Char) : List (List Char) :=
  (segs s).foldl step []

/-- The rooted path spelled by an element stack. -/
def rootedOf (stack : List (List Char)) : List Char :=
  '/' :: joinSlash stack

/-- The rooted path spelled by an element stack, with a trailing slash:
the shape of every normalized mount path. -/
def slashed (stack : List (List Char)) : List Char :=
  if stack = [] then ['/'] else rootedOf stack ++ ['/']

/-- Elements that may legally sit on a resolution stack: nonempty and free
of slashes. -/
def goodHalf (stack : List (List Char)) : Prop :=
  ∀ x ∈ stack, x ≠ [] ∧ '/' ∉ x

/-- Fully resolved stack elements: additionally neither "." nor "..". -/
def goodStack (stack : List (List Char)) : Prop :=
  ∀ x ∈ stack, x ≠ [] ∧ '/' ∉ x ∧ x ≠ ['.'] ∧ x ≠ ['.', '.']

/-- Drop the current-directory elements (".") of a segment list; the effect
of dot-dot-free resolution on a rooted path's segments. -/
def dropCur (B : List (List Char)) : List (List Char) :=
  B.filter fun x => x ≠ ['.']

/-- The spec's eager directory-scan decision: the item is an index.html
file that survives the dot filter. -/
def EligibleIdx (dot : Bool) (item : DirItem) : Prop :=
  (dot = true ∨ hasPfx item.name ['.'] = false) ∧ item.isDir = false ∧ item.name = idxName

/-- The spec's listing order, stated independently of the comparison the
code hands to the sort: no folder entry follows a non-folder entry, and
inside a group of equal folder-ness names never descend. -/
def specOrd (a b : Entry) : Prop :=
  (b.type = folderType → a.type = folderType) ∧
    ((a.type = folderType ↔ b.type = folderType) → lexLt b.name a.name = false)

/-- A directory item as os.ReadDir actually delivers it: a nonempty base
name containing no slash, never "." and never "..". -/
def wfItem (item : DirItem) : Prop :=
  item.name ≠ [] ∧ '/' ∉ item.name ∧ item.name ≠ ['.'] ∧ item.name ≠ ['.', '.']

/-! ### Concrete fixtures used by witnesses and counterexamples -/

/-- A filesystem on which every read fails with os.ErrNotExist. -/
def fsAbsent : Fs where
  readDir := fun _ => .error .notExist
  openErr := fun _ => some .notExist
  statErrNotExist := fun _ => true

/-- A filesystem on which every stat and open succeeds and every directory
read returns an empty directory. -/
def fsPresent : Fs where
  readDir := fun _ => .ok []
  openErr := fun _ => none
  statErrNotExist := fun _ => false

/-- A directory holding a file b.txt, a file index.html and a
subdirectory a. -/
def idxDirList : List DirItem :=
  [⟨"b.txt".toList, false⟩, ⟨"index.html".toList, false⟩, ⟨"a".toList, true⟩]

/-- A filesystem whose directories all look like idxDirList. -/
def fsIdxDir : Fs where
  readDir := fun _ => .ok idxDirList
  openErr := fun _ => some .notExist
  statErrNotExist := fun _ => true

/-- A filesystem whose directories all hold a file b.txt and a
subdirectory a, with no index.html. -/
def fsFiles : Fs where
  readDir := fun _ => .ok [⟨"b.txt".toList, false⟩, ⟨"a".toList, true⟩]
  openErr := fun _ => some .notExist
  statErrNotExist := fun _ => true

def cfgPlain : Cfg := ⟨"/d".toList, "/".toList, false, false, false⟩

/-- The listing fsPresent yields at /p/a/ under the mount path /p/. -/
def c9d : IndexData :=
  ⟨"d/a".toList,
    [⟨"d".toList, "/p/".toList, folderType⟩,
      ⟨"a".toList, "/p/a/".toList, folderType⟩],
    [⟨"..".toList, "/p".toList, folderType⟩]⟩

/-- The listing fsFiles yields at /p/sub/ under the mount path /p/. -/
def c8Data : IndexData :=
  ⟨"d/sub".toList,
    [⟨"d".toList, "/p/".toList, folderType⟩,
      ⟨"sub".toList, "/p/sub/".toList, folderType⟩],
    [⟨"..".toList, "/p".toList, folderType⟩,
      ⟨"a".toList, "/p/sub/a/".toList, folderType⟩,
      ⟨"b.txt".toList, "/p/sub/b.txt".toList, fileType⟩]⟩
def cfgExp : Cfg := ⟨"/d".toList, "/".toList, false, true, true⟩
def cfgSpa : Cfg := ⟨"/d".toList, "/".toList, false, false, true⟩
def cfgPfx : Cfg := ⟨"/d".toList, "/p/".toList, false, false, false⟩
def cfgDotPfx : Cfg := ⟨"/d".toList, "/.h/".toList, false, false, false⟩

/-! ## Lemmas: affix tests -/

theorem hasPfx_nil (s : List Char) : hasPfx s [] = true := by
  cases s <;> rfl

theorem hasPfx_append (p t : List Char) : hasPfx (p ++ t) p = true := by
  induction p with
  | nil => simpa using hasPfx_nil t
  | cons a as ih => simpa [hasPfx] using ih

theorem hasPfx_iff (s p : List Char) : hasPfx s p = true ↔ ∃ t, s = p ++ t := by
  constructor
  · intro h
    induction p generalizing s with
    | nil => exact ⟨s, rfl⟩
    | cons a as ih =>
      cases s with
      | nil => simp [hasPfx] at h
      | cons b bs =>
        simp only [hasPfx] at h
        split at h
        · next hba =>
          obtain ⟨t, ht⟩ := ih bs h
          exact ⟨t, by rw [hba, ht]; rfl⟩
        · simp at h
  · rintro ⟨t, rfl⟩
    exact hasPfx_append p t

theorem trimPfx_append (p t : List Char) : trimPfx (p ++ t) p = t := by
  simp [trimPfx, hasPfx_append]

theorem hasSfx_append_single (w : List Char) (c : Char) :
    hasSfx (w ++ [c]) [c] = true := by
  simp [hasSfx, hasPfx, hasPfx_nil]

theorem hasSfx_single_iff (s : List Char) (c : Char) :
    hasSfx s [c] = true ↔ ∃ w, s = w ++ [c] := by
  constructor
  · intro h
    rw [hasSfx, hasPfx_iff] at h
    obtain ⟨t, ht⟩ := h
    refine ⟨t.reverse, ?_⟩
    have h2 := congrArg List.reverse ht
    simpa using h2
  · rintro ⟨w, rfl⟩
    exact hasSfx_append_single w c

theorem hasSfx_single_ne (w : List Char) (c : Char) (p : List Char) (d : Char)
    (hcd : c ≠ d) : hasSfx (w ++ [c]) (p ++ [d]) = false := by
  simp [hasSfx, hasPfx, hcd]

/-! ## Lemmas: slash splitting and segments -/

theorem splitSlash_ne_nil (s : List Char) : splitSlash s ≠ [] := by
  cases s with
  | nil => simp [splitSlash]
  | cons c rest =>
    simp only [splitSlash]
    split
    · simp
    · split <;> simp

theorem splitSlash_cons_ne (c : Char) (rest h0 : List Char) (t : List (List Char))
    (hc : c ≠ '/') (hrest : splitSlash rest = h0 :: t) :
    splitSlash (c :: rest) = (c :: h0) :: t := by
  simp [splitSlash, hc, hrest]

theorem splitSlash_append (a b : List Char) :
    splitSlash (a ++ '/' :: b) = splitSlash a ++ splitSlash b := by
  induction a with
  | nil => simp [splitSlash]
  | cons c cs ih =>
    obtain ⟨h0, t, hcs⟩ : ∃ h0 t, splitSlash cs = h0 :: t := by
      cases hcs2 : splitSlash cs with
      | nil => exact absurd hcs2 (splitSlash_ne_nil cs)
      | cons x y => exact ⟨x, y, rfl⟩
    by_cases hc : c = '/'
    · subst hc
      simp [splitSlash, ih]
    · have e1 : splitSlash (c :: (cs ++ '/' :: b)) = (c :: h0) :: (t ++ splitSlash b) := by
        apply splitSlash_cons_ne c _ h0 (t ++ splitSlash b) hc
        rw [ih, hcs]
        rfl
      have e2 := splitSlash_cons_ne c cs h0 t hc hcs
      rw [List.cons_append, e1, e2]
      rfl

theorem splitSlash_no_slash (s : List Char) (h : '/' ∉ s) : splitSlash s = [s] := by
  induction s with
  | nil => rfl
  | cons c cs ih =>
    have hc : c ≠ '/' := by
      rintro rfl
      exact h (List.mem_cons_self _ _)
    have hcs : '/' ∉ cs := fun hm => h (List.mem_cons_of_mem _ hm)
    simp [splitSlash, Ne.symm hc, hc, ih hcs]

theorem mem_splitSlash_no_slash (s part : List Char) (h : part ∈ splitSlash s) :
    '/' ∉ part := by
  induction s generalizing part with
  | nil =>
    simp [splitSlash] at h
    simp [h]
  | cons c cs ih =>
    by_cases hc : c = '/'
    · subst hc
      simp only [splitSlash, if_pos] at h
      rcases List.mem_cons.mp h with h | h
      · simp [h]
      · exact ih part h
    · obtain ⟨h0, t, hcs⟩ : ∃ h0 t, splitSlash cs = h0 :: t := by
        cases hcs2 : splitSlash cs with
        | nil => exact absurd hcs2 (splitSlash_ne_nil cs)
        | cons x y => exact ⟨x, y, rfl⟩
      rw [splitSlash_cons_ne c cs h0 t hc hcs] at h
      rcases List.mem_cons.mp h with h1 | h1
      · subst h1
        intro hm
        rcases List.mem_cons.mp hm with h2 | h2
        · exact hc h2.symm
        · exact ih h0 (by rw [hcs]; exact List.mem_cons_self _ _) h2
      · exact ih part (by rw [hcs]; exact List.mem_cons_of_mem _ h1)

theorem segs_nil : segs [] = [] := rfl

theorem segs_cons_slash (s : List Char) : segs ('/' :: s) = segs s := by
  simp [segs, splitSlash]

theorem segs_append_slash (a b : List Char) :
    segs (a ++ '/' :: b) = segs a ++ segs b := by
  simp [segs, splitSlash_append, List.filter_append]

theorem segs_append_slash_nil (a : List Char) : segs (a ++ ['/']) = segs a := by
  have h := segs_append_slash a []
  simpa [segs_nil] using h

theorem segs_single (s : List Char) (h : '/' ∉ s) (hne : s ≠ []) : segs s = [s] := by
  simp [segs, splitSlash_no_slash s h, hne]

theorem mem_segs (s x : List Char) (h : x ∈ segs s) : x ≠ [] ∧ '/' ∉ x := by
  simp only [segs, List.mem_filter] at h
  refine ⟨?_, mem_splitSlash_no_slash s x h.1⟩
  have h2 := h.2
  simp only [List.isEmpty_iff] at h2
  simpa using h2

theorem segs_cons_elem (c : Char) (rest : List Char) (hc : c ≠ '/') :
    segs (c :: rest)
      = (c :: rest).takeWhile (fun x => x ≠ '/')
        :: segs ((c :: rest).dropWhile (fun x => x ≠ '/')) := by
  have hsplit : (c :: rest).takeWhile (fun x => x ≠ '/')
      ++ (c :: rest).dropWhile (fun x => x ≠ '/') = c :: rest :=
    List.takeWhile_append_dropWhile _ _
  have htc : (c :: rest).takeWhile (fun x => x ≠ '/')
      = c :: rest.takeWhile (fun x => x ≠ '/') := by
    simp [List.takeWhile_cons, hc]
  have htne : (c :: rest).takeWhile (fun x => x ≠ '/') ≠ [] := by
    rw [htc]
    simp
  have htns : '/' ∉ (c :: rest).takeWhile (fun x => x ≠ '/') := by
    intro hm
    have h2 := List.mem_takeWhile_imp hm
    simp at h2
  cases hdd : (c :: rest).dropWhile (fun x => x ≠ '/') with
  | nil =>
    conv_lhs => rw [← hsplit]
    rw [hdd, segs_nil, List.append_nil, segs_single _ htns htne]
  | cons e d2 =>
    have he : e = '/' := by
      have h2 := List.head?_dropWhile_not (fun x => decide (x ≠ '/')) (c :: rest)
      rw [hdd] at h2
      simp at h2
      exact h2
    conv_lhs => rw [← hsplit]
    rw [hdd, he, segs_append_slash, segs_single _ htns htne, segs_cons_slash]
    rfl

/-! ## Lemmas: joinSlash and rootedOf -/

theorem joinSlash_cons (x : List Char) (l : List (List Char)) (hl : l ≠ []) :
    joinSlash (x :: l) = x ++ '/' :: joinSlash l := by
  cases l with
  | nil => exact absurd rfl hl
  | cons y t => rfl

theorem joinSlash_append (a b : List (List Char)) (ha : a ≠ []) (hb : b ≠ []) :
    joinSlash (a ++ b) = joinSlash a ++ '/' :: joinSlash b := by
  induction a with
  | nil => exact absurd rfl ha
  | cons x xs ih =>
    cases hxs : xs with
    | nil =>
      subst hxs
      rw [List.singleton_append, joinSlash_cons x b hb]
      rfl
    | cons y t =>
      rw [← hxs]
      have hxs' : xs ≠ [] := by rw [hxs]; simp
      have hab : xs ++ b ≠ [] := by
        simp [hxs]
      rw [List.cons_append, joinSlash_cons x (xs ++ b) hab, ih hxs',
        joinSlash_cons x xs hxs']
      simp

theorem rootedOf_append (a b : List (List Char)) (ha : a ≠ []) (hb : b ≠ []) :
    rootedOf (a ++ b) = rootedOf a ++ rootedOf b := by
  simp only [rootedOf, joinSlash_append a b ha hb]
  rfl

theorem joinSlash_ne_nil (stack : List (List Char)) (hg : goodHalf stack)
    (hne : stack ≠ []) : joinSlash stack ≠ [] := by
  cases stack with
  | nil => exact absurd rfl hne
  | cons x t =>
    have hx : x ≠ [] := (hg x (List.mem_cons_self _ _)).1
    cases t with
    | nil => exact hx
    | cons y t2 =>
      rw [joinSlash_cons x (y :: t2) (by simp)]
      intro hcontra
      rcases List.append_eq_nil.mp hcontra with ⟨_, h2⟩
      exact absurd h2 (by simp)

theorem rootedOf_length_gt (stack : List (List Char)) (hg : goodHalf stack)
    (hne : stack ≠ []) : (rootedOf stack).length > 1 := by
  have h := joinSlash_ne_nil stack hg hne
  have : (joinSlash stack).length > 0 := List.length_pos.mpr h
  simp only [rootedOf, List.length_cons]
  omega

theorem goodHalf_of_goodStack (stack : List (List Char)) (hg : goodStack stack) :
    goodHalf stack := by
  intro x hx
  exact ⟨(hg x hx).1, (hg x hx).2.1⟩

/-! ## Lemmas: the backtracking scan -/

theorem btLoop_eq (out : List Char) (dotdot k : Nat)
    (hkd : dotdot ≤ k) (hstop : k = dotdot ∨ out.getD k ' ' = '/') :
    ∀ w, k ≤ w → (∀ i, k < i → i ≤ w → out.getD i ' ' ≠ '/') →
      btLoop out dotdot w = k := by
  intro w
  induction w with
  | zero =>
    intro hk _
    interval_cases k
    rfl
  | succ w ih =>
    intro hk hall
    rcases Nat.eq_or_lt_of_le hk with heq | hlt
    · subst heq
      have hcond : ¬(w + 1 > dotdot ∧ out.getD (w + 1) ' ' ≠ '/') := by
        rcases hstop with h | h
        · intro hcontra
          omega
        · intro hcontra
          exact hcontra.2 h
      rw [btLoop, if_neg hcond]
    · have hw : k ≤ w := Nat.lt_succ_iff.mp hlt
      rw [btLoop, if_pos]
      · exact ih hw fun i h1 h2 => hall i h1 (Nat.le_succ_of_le h2)
      · refine ⟨by omega, hall (w + 1) hlt (le_refl _)⟩

theorem getD_slash_seg (A seg : List Char) (hsegns : '/' ∉ seg) (i : Nat)
    (h1 : A.length < i) (h2 : i ≤ A.length + seg.length) :
    (A ++ '/' :: seg).getD i ' ' ≠ '/' := by
  rw [List.getD_append_right _ _ _ _ (Nat.le_of_lt h1)]
  have hj : i - A.length = (i - A.length - 1) + 1 := by omega
  rw [hj]
  have hlt : i - A.length - 1 < seg.length := by omega
  have : ('/' :: seg).getD (i - A.length - 1 + 1) ' ' = seg.getD (i - A.length - 1) ' ' := rfl
  rw [this, List.getD_eq_getElem _ _ hlt]
  intro hcontra
  exact hsegns (hcontra ▸ List.getElem_mem hlt)

theorem backtrack_rootedOf (stack : List (List Char)) (hg : goodHalf stack)
    (hne : stack ≠ []) :
    backtrack 1 (rootedOf stack) = rootedOf stack.dropLast := by
  obtain ⟨st, seg, hst⟩ : ∃ st seg, stack = st ++ [seg] :=
    ⟨stack.dropLast, stack.getLast hne, (List.dropLast_append_getLast hne).symm⟩
  subst hst
  have hseg_mem : seg ∈ st ++ [seg] := by simp
  have hsegne : seg ≠ [] := (hg seg hseg_mem).1
  have hsegns : '/' ∉ seg := (hg seg hseg_mem).2
  have hseglen : 1 ≤ seg.length := List.length_pos.mpr hsegne
  have hdrop : (st ++ [seg]).dropLast = st := by simp
  rw [hdrop]
  cases hst0 : st with
  | nil =>
    subst hst0
    have hout : rootedOf ([] ++ [seg]) = [] ++ '/' :: seg := rfl
    rw [hout, backtrack]
    have hlen : ([] ++ '/' :: seg : List Char).length - 1 = seg.length := by simp
    rw [hlen]
    rw [btLoop_eq ([] ++ '/' :: seg) 1 1 (le_refl 1) (Or.inl rfl) seg.length hseglen
      (fun i h1 h2 => getD_slash_seg [] seg hsegns i
        (by simp only [List.length_nil]; omega) (by simpa using h2))]
    cases seg with
    | nil => exact absurd rfl hsegne
    | cons a b => rfl
  | cons s0 st2 =>
    rw [← hst0]
    have hstne : st ≠ [] := by rw [hst0]; simp
    have hgst : goodHalf st := fun x hx => hg x (List.mem_append_left _ hx)
    have hout : rootedOf (st ++ [seg]) = rootedOf st ++ '/' :: seg := by
      rw [rootedOf_append st [seg] hstne (by simp)]
      rfl
    have hklen : 1 < (rootedOf st).length := rootedOf_length_gt st hgst hstne
    rw [hout, backtrack]
    have hlen : (rootedOf st ++ '/' :: seg).length - 1
        = (rootedOf st).length + seg.length := by
      simp only [List.length_append, List.length_cons]
      omega
    rw [hlen]
    have hstop : (rootedOf st ++ '/' :: seg).getD (rootedOf st).length ' ' = '/' := by
      rw [List.getD_append_right _ _ _ _ (le_refl _)]
      simp
    rw [btLoop_eq (rootedOf st ++ '/' :: seg) 1 (rootedOf st).length
      (Nat.le_of_lt hklen) (Or.inr hstop) ((rootedOf st).length + seg.length)
      (Nat.le_add_right _ _)
      (fun i h1 h2 => getD_slash_seg (rootedOf st) seg hsegns i h1 h2)]
    exact List.take_left _ _

/-! ## Lemmas: unfolding the path.Clean loop one branch at a time -/

theorem cleanLoop_slash (fuel : Nat) (r : Bool) (dd : Nat) (out rest : List Char) :
    cleanLoop (fuel + 1) r dd out ('/' :: rest) = cleanLoop fuel r dd out rest := by
  simp [cleanLoop]

theorem cleanLoop_dot (fuel : Nat) (r : Bool) (dd : Nat) (out rest : List Char)
    (h : rest = [] ∨ rest.head? = some '/') :
    cleanLoop (fuel + 1) r dd out ('.' :: rest) = cleanLoop fuel r dd out rest := by
  rw [cleanLoop, if_neg (by decide : ¬(('.' : Char) = '/')), if_pos ⟨rfl, h⟩]

theorem cleanLoop_dotdot_pop (fuel : Nat) (r : Bool) (dd : Nat) (out r2 : List Char)
    (h : r2 = [] ∨ r2.head? = some '/') (hlen : out.length > dd) :
    cleanLoop (fuel + 1) r dd out ('.' :: '.' :: r2)
      = cleanLoop fuel r dd (backtrack dd out) r2 := by
  have hno2 : ¬(('.' : Char) = '.' ∧ ('.' :: r2 = [] ∨ ('.' :: r2).head? = some '/')) := by
    rintro ⟨-, h2 | h2⟩ <;> simp at h2
  have hyes3 : ('.' : Char) = '.' ∧ ('.' :: r2).head? = some '.'
      ∧ (('.' :: r2).tail = [] ∨ ('.' :: r2).tail.head? = some '/') :=
    ⟨rfl, rfl, by simpa using h⟩
  rw [cleanLoop, if_neg (by decide : ¬(('.' : Char) = '/')), if_neg hno2, if_pos hyes3,
    if_pos hlen]
  rfl

theorem cleanLoop_dotdot_root (fuel : Nat) (dd : Nat) (out r2 : List Char)
    (h : r2 = [] ∨ r2.head? = some '/') (hlen : ¬ out.length > dd) :
    cleanLoop (fuel + 1) true dd out ('.' :: '.' :: r2)
      = cleanLoop fuel true dd out r2 := by
  have hno2 : ¬(('.' : Char) = '.' ∧ ('.' :: r2 = [] ∨ ('.' :: r2).head? = some '/')) := by
    rintro ⟨-, h2 | h2⟩ <;> simp at h2
  have hyes3 : ('.' : Char) = '.' ∧ ('.' :: r2).head? = some '.'
      ∧ (('.' :: r2).tail = [] ∨ ('.' :: r2).tail.head? = some '/') :=
    ⟨rfl, rfl, by simpa using h⟩
  rw [cleanLoop, if_neg (by decide : ¬(('.' : Char) = '/')), if_neg hno2, if_pos hyes3,
    if_neg hlen, if_neg (by simp : ¬¬(true = true))]
  rfl

theorem cleanLoop_elem (fuel : Nat) (r : Bool) (dd : Nat) (out rest : List Char)
    (c : Char) (h1 : c ≠ '/')
    (h2 : ¬(c = '.' ∧ (rest = [] ∨ rest.head? = some '/')))
    (h3 : ¬(c = '.' ∧ rest.head? = some '.' ∧ (rest.tail = [] ∨ rest.tail.head? = some '/'))) :
    cleanLoop (fuel + 1) r dd out (c :: rest)
      = cleanLoop fuel r dd
          ((if (r ∧ out.length ≠ 1) ∨ (¬ r ∧ out.length ≠ 0) then out ++ ['/'] else out)
            ++ (c :: rest).takeWhile (fun x => x ≠ '/'))
          ((c :: rest).dropWhile (fun x => x ≠ '/')) := by
  rw [cleanLoop, if_neg h1, if_neg h2, if_neg h3]

/-! ## The characterization of the path.Clean loop on rooted input -/

theorem cleanLoop_rooted (fuel : Nat) :
    ∀ (s : List Char) (stack : List (List Char)), s.length < fuel → goodHalf stack →
      cleanLoop fuel true 1 (rootedOf stack) s
        = rootedOf ((segs s).foldl step stack) := by
  induction fuel with
  | zero =>
    intro s stack hf _
    omega
  | succ fuel ih =>
    intro s stack hf hg
    cases s with
    | nil =>
      rw [segs_nil]
      rfl
    | cons c rest =>
      have hrest : rest.length < fuel := by
        simp only [List.length_cons] at hf
        omega
      by_cases hc : c = '/'
      · subst hc
        rw [cleanLoop_slash, segs_cons_slash]
        exact ih rest stack hrest hg
      by_cases hc2 : c = '.' ∧ (rest = [] ∨ rest.head? = some '/')
      · obtain ⟨hcdot, hr⟩ := hc2
        subst hcdot
        rw [cleanLoop_dot fuel true 1 _ rest hr]
        have hsegs : segs ('.' :: rest) = ['.'] :: segs rest := by
          rcases hr with hr | hr
          · subst hr
            rfl
          · cases rest with
            | nil => simp at hr
            | cons e r2 =>
              have he : e = '/' := by simpa using hr
              subst he
              have : ('.' :: '/' :: r2) = ['.'] ++ '/' :: r2 := rfl
              rw [this, segs_append_slash, segs_cons_slash,
                segs_single ['.'] (by simp) (by simp)]
              rfl
        rw [hsegs, List.foldl_cons]
        have hstep : step stack ['.'] = stack := by
          simp [step]
        rw [hstep]
        exact ih rest stack hrest hg
      by_cases hc3 : c = '.' ∧ rest.head? = some '.'
          ∧ (rest.tail = [] ∨ rest.tail.head? = some '/')
      · obtain ⟨hcdot, hr1, hr2⟩ := hc3
        subst hcdot
        cases rest with
        | nil => simp at hr1
        | cons e r2 =>
          have he : e = '.' := by simpa using hr1
          subst he
          have hr2' : r2 = [] ∨ r2.head? = some '/' := by simpa using hr2
          have hr2len : r2.length < fuel := by
            simp only [List.length_cons] at hf
            omega
          have hsegs : segs ('.' :: '.' :: r2) = ['.', '.'] :: segs r2 := by
            rcases hr2' with hr | hr
            · subst hr
              rfl
            · cases r2 with
              | nil => simp at hr
              | cons e2 r3 =>
                have he2 : e2 = '/' := by simpa using hr
                subst he2
                have : ('.' :: '.' :: '/' :: r3) = ['.', '.'] ++ '/' :: r3 := rfl
                rw [this, segs_append_slash, segs_cons_slash,
                  segs_single ['.', '.'] (by simp) (by simp)]
                rfl
          have hstep : step stack ['.', '.'] = stack.dropLast := by
            simp [step]
          rw [hsegs, List.foldl_cons, hstep]
          by_cases hlen : (rootedOf stack).length > 1
          · have hstackne : stack ≠ [] := by
              rintro rfl
              simp [rootedOf, joinSlash] at hlen
            rw [cleanLoop_dotdot_pop fuel true 1 _ r2 hr2' hlen,
              backtrack_rootedOf stack hg hstackne]
            exact ih r2 stack.dropLast hr2len
              (fun x hx => hg x (List.mem_of_mem_dropLast hx))
          · have hstacke : stack = [] := by
              by_contra hne
              exact hlen (rootedOf_length_gt stack hg hne)
            subst hstacke
            rw [cleanLoop_dotdot_root fuel 1 _ r2 hr2' hlen]
            have : ([] : List (List Char)).dropLast = [] := rfl
            rw [this]
            exact ih r2 [] hr2len hg
      · -- a real element
        have hne2 : ¬(c = '.' ∧ (rest = [] ∨ rest.head? = some '/')) := hc2
        have hne3 : ¬(c = '.' ∧ rest.head? = some '.'
            ∧ (rest.tail = [] ∨ rest.tail.head? = some '/')) := hc3
        rw [cleanLoop_elem fuel true 1 _ rest c hc hne2 hne3]
        have hsegs := segs_cons_elem c rest hc
        have htns : '/' ∉ (c :: rest).takeWhile (fun x => x ≠ '/') := by
          intro hm
          have h2 := List.mem_takeWhile_imp hm
          simp at h2
        have htc : (c :: rest).takeWhile (fun x => x ≠ '/')
            = c :: rest.takeWhile (fun x => x ≠ '/') := by
          simp [List.takeWhile_cons, hc]
        have htne : (c :: rest).takeWhile (fun x => x ≠ '/') ≠ [] := by
          rw [htc]
          simp
        have htnd : (c :: rest).takeWhile (fun x => x ≠ '/') ≠ ['.'] := by
          rw [htc]
          intro hcontra
          have hcd : c = '.' := (List.cons_eq_cons.mp hcontra).1
          have htw : rest.takeWhile (fun x => x ≠ '/') = [] :=
            (List.cons_eq_cons.mp hcontra).2
          apply hne2
          refine ⟨hcd, ?_⟩
          cases rest with
          | nil => exact Or.inl rfl
          | cons e r2 =>
            right
            by_cases he : e = '/'
            · simp [he]
            · rw [List.takeWhile_cons_of_pos (by simpa using he)] at htw
              simp at htw
        have htndd : (c :: rest).takeWhile (fun x => x ≠ '/') ≠ ['.', '.'] := by
          rw [htc]
          intro hcontra
          have hcd : c = '.' := (List.cons_eq_cons.mp hcontra).1
          have htw : rest.takeWhile (fun x => x ≠ '/') = ['.'] :=
            (List.cons_eq_cons.mp hcontra).2
          apply hne3
          refine ⟨hcd, ?_, ?_⟩
          · cases rest with
            | nil => simp at htw
            | cons e r2 =>
              by_cases he : e = '/'
              · rw [List.takeWhile_cons_of_neg (by simpa using he)] at htw
                simp at htw
              · rw [List.takeWhile_cons_of_pos (by simpa using he)] at htw
                have : e = '.' := (List.cons_eq_cons.mp htw).1
                simp [this]
          · cases rest with
            | nil => simp at htw
            | cons e r2 =>
              by_cases he : e = '/'
              · rw [List.takeWhile_cons_of_neg (by simpa using he)] at htw
                simp at htw
              · rw [List.takeWhile_cons_of_pos (by simpa using he)] at htw
                have htw2 : r2.takeWhile (fun x => x ≠ '/') = [] :=
                  (List.cons_eq_cons.mp htw).2
                simp only [List.tail_cons]
                cases r2 with
                | nil => exact Or.inl rfl
                | cons e2 r3 =>
                  right
                  by_cases he2 : e2 = '/'
                  · simp [he2]
                  · rw [List.takeWhile_cons_of_pos (by simpa using he2)] at htw2
                    simp at htw2
        have hout2 : (if (true = true ∧ (rootedOf stack).length ≠ 1)
              ∨ (¬(true = true) ∧ (rootedOf stack).length ≠ 0)
            then rootedOf stack ++ ['/'] else rootedOf stack)
            ++ (c :: rest).takeWhile (fun x => x ≠ '/')
            = rootedOf (stack ++ [(c :: rest).takeWhile (fun x => x ≠ '/')]) := by
          by_cases hstack : stack = []
          · subst hstack
            rw [if_neg]
            · rfl
            · rintro (⟨-, h2⟩ | ⟨h2, -⟩)
              · exact h2 rfl
              · exact h2 rfl
          · rw [if_pos (Or.inl ⟨rfl, by
              have := rootedOf_length_gt stack hg hstack
              omega⟩)]
            rw [rootedOf_append stack [(c :: rest).takeWhile (fun x => x ≠ '/')] hstack
              (by simp)]
            simp [rootedOf, joinSlash]
        rw [hout2, hsegs, List.foldl_cons]
        have hstep : step stack ((c :: rest).takeWhile (fun x => x ≠ '/'))
            = stack ++ [(c :: rest).takeWhile (fun x => x ≠ '/')] := by
          rw [step, if_neg htnd, if_neg htndd]
        rw [hstep]
        have hdlen : ((c :: rest).dropWhile (fun x => x ≠ '/')).length < fuel := by
          have hsplit : ((c :: rest).takeWhile (fun x => x ≠ '/')).length
              + ((c :: rest).dropWhile (fun x => x ≠ '/')).length
              = (c :: rest).length := by
            rw [← List.length_append, List.takeWhile_append_dropWhile]
          have htl : ((c :: rest).takeWhile (fun x => x ≠ '/')).length ≥ 1 := by
            rw [htc]
            simp
          simp only [List.length_cons] at hsplit hf
          omega
        exact ih _ (stack ++ [(c :: rest).takeWhile (fun x => x ≠ '/')]) hdlen
          (by
            intro x hx
            rcases List.mem_append.mp hx with hx | hx
            · exact hg x hx
            · have : x = (c :: rest).takeWhile (fun x => x ≠ '/') := by simpa using hx
              subst this
              exact ⟨htne, htns⟩)

/-! ## Lemmas: path.Clean and path.Join on rooted input -/

theorem clean_rooted (s : List Char) :
    clean ('/' :: s) = rootedOf ((segs s).foldl step []) := by
  have h : cleanLoop (s.length + 1) true 1 ['/'] s
      = rootedOf ((segs s).foldl step []) :=
    cleanLoop_rooted (s.length + 1) s [] (by omega) (by intro x hx; simp at hx)
  rw [clean]
  simp only [List.cons_ne_nil, if_false, List.head?_cons, List.drop_succ_cons,
    List.drop_zero, List.length_cons]
  have hd : (decide (some '/' = some '/')) = true := by decide
  simp only [hd, if_pos rfl, if_true, reduceIte, show (decide True) = true from rfl]
  rw [h]
  rw [if_neg (by simp [rootedOf])]

theorem joinBuf_three (a b c : List Char) (ha : a ≠ []) :
    joinBuf [a, b, c] = (a ++ '/' :: b) ++ '/' :: c := by
  have hal : 0 < a.length := List.length_pos.mpr ha
  simp [joinBuf, ha, hal, List.length_pos]

theorem joinBuf_pair (a b : List Char) (ha : a ≠ []) :
    joinBuf [a, b] = a ++ '/' :: b := by
  have hal : 0 < a.length := List.length_pos.mpr ha
  simp [joinBuf, ha, hal]

theorem pathJoin_three (a b c : List Char) (ha : a ≠ []) :
    pathJoin [a, b, c] = clean ((a ++ '/' :: b) ++ '/' :: c) := by
  rw [pathJoin, if_neg, joinBuf_three a b c ha]
  have hal : 0 < a.length := List.length_pos.mpr ha
  simp only [List.foldr]
  omega

theorem pathJoin_pair (a b : List Char) (ha : a ≠ []) :
    pathJoin [a, b] = clean (a ++ '/' :: b) := by
  rw [pathJoin, if_neg, joinBuf_pair a b ha]
  have hal : 0 < a.length := List.length_pos.mpr ha
  simp only [List.foldr]
  omega

/-! ## Lemmas: the shape of normalizePrefix -/

theorem goodStack_foldl (B : List (List Char)) (hB : ∀ x ∈ B, x ≠ [] ∧ '/' ∉ x) :
    ∀ acc, goodStack acc → goodStack (B.foldl step acc) := by
  induction B with
  | nil =>
    intro acc hacc
    exact hacc
  | cons b B2 ih =>
    intro acc hacc
    rw [List.foldl_cons]
    refine ih (fun x hx => hB x (List.mem_cons_of_mem _ hx)) (step acc b) ?_
    rw [step]
    split
    · exact hacc
    · split
      · exact fun x hx => hacc x (List.mem_of_mem_dropLast hx)
      · next hnd hndd =>
        intro x hx
        rcases List.mem_append.mp hx with hx | hx
        · exact hacc x hx
        · have hxb : x = b := by simpa using hx
          subst hxb
          obtain ⟨h1, h2⟩ := hB x (List.mem_cons_self _ _)
          exact ⟨h1, h2, hnd, hndd⟩

theorem goodStack_resolve (raw : List Char) : goodStack (resolve raw) :=
  goodStack_foldl (segs raw) (fun x hx => mem_segs raw x hx) []
    (by intro x hx; simp at hx)

theorem joinSlash_head_ne (stack : List (List Char)) (hg : goodHalf stack)
    (hne : stack ≠ []) :
    ∃ hx rest2, joinSlash stack = hx :: rest2 ∧ hx ≠ '/' := by
  cases stack with
  | nil => exact absurd rfl hne
  | cons x t =>
    obtain ⟨hxne, hxns⟩ := hg x (List.mem_cons_self _ _)
    cases hx0 : x with
    | nil => exact absurd hx0 hxne
    | cons a x2 =>
      have ha : a ≠ '/' := by
        rintro rfl
        exact hxns (by rw [hx0]; exact List.mem_cons_self _ _)
      cases t with
      | nil => exact ⟨a, x2, by simp [joinSlash, hx0], ha⟩
      | cons y t2 =>
        refine ⟨a, x2 ++ '/' :: joinSlash (y :: t2), ?_, ha⟩
        rw [joinSlash_cons (a :: x2) (y :: t2) (by simp)]
        rfl

theorem joinSlash_getLast_ne (stack : List (List Char)) (hg : goodHalf stack)
    (hne : stack ≠ []) :
    ∃ w c, joinSlash stack = w ++ [c] ∧ c ≠ '/' := by
  induction stack with
  | nil => exact absurd rfl hne
  | cons x t ih =>
    obtain ⟨hxne, hxns⟩ := hg x (List.mem_cons_self _ _)
    cases t with
    | nil =>
      refine ⟨x.dropLast, x.getLast hxne, (List.dropLast_append_getLast hxne).symm, ?_⟩
      intro hcontra
      exact hxns (hcontra ▸ List.getLast_mem hxne)
    | cons y t2 =>
      obtain ⟨w, c, hw, hc⟩ := ih (fun z hz => hg z (List.mem_cons_of_mem _ hz)) (by simp)
      refine ⟨x ++ '/' :: w, c, ?_, hc⟩
      rw [joinSlash_cons x (y :: t2) (by simp), hw]
      simp

theorem normalizePfx_eq (raw : List Char) :
    normalizePfx raw = slashed (resolve raw) := by
  have hgood : goodStack (resolve raw) := goodStack_resolve raw
  have hgh : goodHalf (resolve raw) := goodHalf_of_goodStack _ hgood
  have hj : pathJoin [['/'], raw, ['/']] = rootedOf (resolve raw) := by
    rw [pathJoin_three ['/'] raw ['/'] (by simp)]
    have hshape : (['/'] ++ '/' :: raw) ++ '/' :: ['/']
        = '/' :: ('/' :: ((raw ++ ['/']) ++ ['/'])) := by
      simp
    rw [hshape, clean_rooted, segs_cons_slash,
      segs_append_slash_nil (raw ++ ['/']), segs_append_slash_nil raw]
    rfl
  rw [normalizePfx]
  simp only [hj]
  by_cases hres : resolve raw = []
  · rw [hres]
    rfl
  · obtain ⟨w, c, hw, hc⟩ := joinSlash_getLast_ne (resolve raw) hgh hres
    obtain ⟨hx, rest2, hhead, hhx⟩ := joinSlash_head_ne (resolve raw) hgh hres
    have hdrop : List.drop 1 (rootedOf (resolve raw)) = joinSlash (resolve raw) := rfl
    have hsfx : hasSfx (joinSlash (resolve raw)) ['/'] = false := by
      rw [hw]
      have h2 := hasSfx_single_ne w c [] '/' hc
      simpa using h2
    have hpfx : hasPfx (joinSlash (resolve raw) ++ ['/']) ['/'] = false := by
      rw [hhead]
      simp [hasPfx, hhx]
    simp only [hdrop, hsfx]
    simp [hpfx, slashed, hres, rootedOf]

theorem segs_joinSlash (stack : List (List Char)) (hg : goodHalf stack) :
    segs (joinSlash stack) = stack := by
  induction stack with
  | nil => rfl
  | cons x t ih =>
    obtain ⟨hxne, hxns⟩ := hg x (List.mem_cons_self _ _)
    cases t with
    | nil => exact segs_single x hxns hxne
    | cons y t2 =>
      rw [joinSlash_cons x (y :: t2) (by simp), segs_append_slash,
        segs_single x hxns hxne, ih (fun z hz => hg z (List.mem_cons_of_mem _ hz))]
      rfl

theorem foldl_step_id (stack : List (List Char)) (hg : goodStack stack) :
    ∀ acc, stack.foldl step acc = acc ++ stack := by
  induction stack with
  | nil =>
    intro acc
    simp
  | cons x t ih =>
    intro acc
    obtain ⟨h1, h2, h3, h4⟩ := hg x (List.mem_cons_self _ _)
    rw [List.foldl_cons, step, if_neg h3, if_neg h4,
      ih (fun z hz => hg z (List.mem_cons_of_mem _ hz))]
    simp

theorem resolve_slashed (stack : List (List Char)) (hg : goodStack stack) :
    resolve (slashed stack) = stack := by
  by_cases hne : stack = []
  · subst hne
    rfl
  · rw [slashed, if_neg hne, resolve]
    have hshape : rootedOf stack ++ ['/'] = '/' :: (joinSlash stack ++ ['/']) := rfl
    rw [hshape, segs_cons_slash, segs_append_slash_nil,
      segs_joinSlash stack (goodHalf_of_goodStack _ hg), foldl_step_id stack hg]
    rfl

theorem normalizePfx_idem (raw : List Char) :
    normalizePfx (normalizePfx raw) = normalizePfx raw := by
  rw [normalizePfx_eq raw, normalizePfx_eq (slashed (resolve raw)),
    resolve_slashed _ (goodStack_resolve raw)]

theorem hasPfx_cons_self (c : Char) (w : List Char) : hasPfx (c :: w) [c] = true := by
  simp [hasPfx, hasPfx_nil]

theorem normalizePfx_shape (raw : List Char) :
    hasPfx (normalizePfx raw) ['/'] = true ∧ hasSfx (normalizePfx raw) ['/'] = true := by
  rw [normalizePfx_eq raw, slashed]
  by_cases hne : resolve raw = []
  · rw [if_pos hne]
    exact ⟨by decide, by decide⟩
  · rw [if_neg hne]
    constructor
    · exact hasPfx_cons_self '/' (joinSlash (resolve raw) ++ ['/'])
    · exact hasSfx_append_single (rootedOf (resolve raw)) '/'

/-! ## Lemmas: the Go string order and the listing comparison -/

theorem lexLt_irrefl (a : List Char) : lexLt a a = false := by
  induction a with
  | nil => rfl
  | cons c as ih => simp [lexLt, lt_irrefl c, ih]

theorem lexLt_trans (a : List Char) :
    ∀ b c, lexLt a b = true → lexLt b c = true → lexLt a c = true := by
  induction a with
  | nil =>
    intro b c h1 h2
    cases b with
    | nil => simp [lexLt] at h1
    | cons b0 bs =>
      cases c with
      | nil => simp [lexLt] at h2
      | cons c0 cs => rfl
  | cons a0 as ih =>
    intro b c h1 h2
    cases b with
    | nil => simp [lexLt] at h1
    | cons b0 bs =>
      cases c with
      | nil => simp [lexLt] at h2
      | cons c0 cs =>
        simp only [lexLt] at h1 h2 ⊢
        by_cases hab : a0 < b0
        · by_cases hbc : b0 < c0
          · rw [if_pos (lt_trans hab hbc)]
          · rw [if_neg hbc] at h2
            by_cases hcb : c0 < b0
            · rw [if_pos hcb] at h2
              simp at h2
            · have hbceq : b0 = c0 := le_antisymm (le_of_not_lt hcb) (le_of_not_lt hbc)
              rw [if_pos (hbceq ▸ hab)]
        · rw [if_neg hab] at h1
          by_cases hba : b0 < a0
          · rw [if_pos hba] at h1
            simp at h1
          · rw [if_neg hba] at h1
            have habeq : a0 = b0 := le_antisymm (le_of_not_lt hba) (le_of_not_lt hab)
            subst habeq
            by_cases hac : a0 < c0
            · rw [if_pos hac]
            · rw [if_neg hac] at h2 ⊢
              by_cases hca : c0 < a0
              · rw [if_pos hca] at h2
                simp at h2
              · rw [if_neg hca] at h2 ⊢
                exact ih bs cs h1 h2

theorem lexLt_asymm (a b : List Char) (h : lexLt a b = true) : lexLt b a = false := by
  cases hx : lexLt b a with
  | false => rfl
  | true =>
    have h2 := lexLt_trans a b a h hx
    rw [lexLt_irrefl] at h2
    simp at h2

theorem lexLt_eq_of_both_false (a : List Char) :
    ∀ b, lexLt a b = false → lexLt b a = false → a = b := by
  induction a with
  | nil =>
    intro b h1 _
    cases b with
    | nil => rfl
    | cons b0 bs => simp [lexLt] at h1
  | cons a0 as ih =>
    intro b h1 h2
    cases b with
    | nil => simp [lexLt] at h2
    | cons b0 bs =>
      simp only [lexLt] at h1 h2
      by_cases hab : a0 < b0
      · rw [if_pos hab] at h1
        simp at h1
      · rw [if_neg hab] at h1
        by_cases hba : b0 < a0
        · rw [if_pos hba] at h2
          simp at h2
        · rw [if_neg hba] at h1
          rw [if_neg hba, if_neg hab] at h2
          have habeq : a0 = b0 := le_antisymm (le_of_not_lt hba) (le_of_not_lt hab)
          rw [habeq, ih bs h1 h2]

theorem lexLt_negtrans (a b c : List Char) (h1 : lexLt b a = false)
    (h2 : lexLt c b = false) : lexLt c a = false := by
  cases hca : lexLt c a with
  | false => rfl
  | true =>
    by_cases hbc : lexLt b c = true
    · have h3 := lexLt_trans b c a hbc hca
      rw [h3] at h1
      simp at h1
    · have hbc2 : lexLt b c = false := by
        cases hx : lexLt b c with
        | false => rfl
        | true => exact absurd hx hbc
      have heq : b = c := lexLt_eq_of_both_false b c hbc2 h2
      subst heq
      rw [hca] at h1
      simp at h1

theorem entryLess_asymm (a b : Entry) (h : entryLess a b = true) :
    entryLess b a = false := by
  by_cases fa : a.type = folderType <;> by_cases fb : b.type = folderType
  · have h2 : lexLt a.name b.name = true := by simpa [entryLess, fa, fb] using h
    simpa [entryLess, fa, fb] using lexLt_asymm _ _ h2
  · simp [entryLess, fa, fb]
  · exact absurd h (by simp [entryLess, fa, fb])
  · have h2 : lexLt a.name b.name = true := by simpa [entryLess, fa, fb] using h
    simpa [entryLess, fa, fb] using lexLt_asymm _ _ h2

theorem entryLess_negtrans (a b c : Entry) (h1 : entryLess b a = false)
    (h2 : entryLess c b = false) : entryLess c a = false := by
  by_cases fa : a.type = folderType <;> by_cases fb : b.type = folderType <;>
    by_cases fc : c.type = folderType
  · have h1a : lexLt b.name a.name = false := by simpa [entryLess, fa, fb] using h1
    have h2a : lexLt c.name b.name = false := by simpa [entryLess, fb, fc] using h2
    simpa [entryLess, fa, fc] using lexLt_negtrans a.name b.name c.name h1a h2a
  · simp [entryLess, fa, fc]
  · exact absurd h2 (by simp [entryLess, fb, fc])
  · simp [entryLess, fa, fc]
  · exact absurd h1 (by simp [entryLess, fa, fb])
  · exact absurd h1 (by simp [entryLess, fa, fb])
  · exact absurd h2 (by simp [entryLess, fb, fc])
  · have h1a : lexLt b.name a.name = false := by simpa [entryLess, fa, fb] using h1
    have h2a : lexLt c.name b.name = false := by simpa [entryLess, fb, fc] using h2
    simpa [entryLess, fa, fc] using lexLt_negtrans a.name b.name c.name h1a h2a

theorem mem_insertEntry (e y : Entry) (l : List Entry) :
    y ∈ insertEntry e l ↔ y = e ∨ y ∈ l := by
  induction l with
  | nil => simp [insertEntry]
  | cons x xs ih =>
    rw [insertEntry]
    split
    · rw [List.mem_cons, ih, List.mem_cons]
      tauto
    · rw [List.mem_cons]

theorem pairwise_insertEntry (e : Entry) (l : List Entry)
    (hl : l.Pairwise (fun a b => entryLess b a = false)) :
    (insertEntry e l).Pairwise (fun a b => entryLess b a = false) := by
  induction l with
  | nil => simp [insertEntry]
  | cons x xs ih =>
    obtain ⟨hx, hxs⟩ := List.pairwise_cons.mp hl
    rw [insertEntry]
    split
    · next hle =>
      rw [List.pairwise_cons]
      constructor
      · intro y hy
        rcases (mem_insertEntry e y xs).mp hy with rfl | hy
        · exact entryLess_asymm x y hle
        · exact hx y hy
      · exact ih hxs
    · next hle =>
      have hle2 : entryLess x e = false := by
        cases hx2 : entryLess x e with
        | false => rfl
        | true => exact absurd (by simp [hx2] : entryLess x e) hle
      rw [List.pairwise_cons]
      constructor
      · intro y hy
        rcases List.mem_cons.mp hy with rfl | hy
        · exact hle2
        · exact entryLess_negtrans e x y hle2 (hx y hy)
      · exact hl

theorem sortEntries_pairwise (l : List Entry) :
    (sortEntries l).Pairwise (fun a b => entryLess b a = false) := by
  rw [sortEntries]
  induction l with
  | nil => simp
  | cons x xs ih => exact pairwise_insertEntry x _ ih

theorem mem_sortEntries (l : List Entry) (y : Entry) :
    y ∈ sortEntries l ↔ y ∈ l := by
  rw [sortEntries]
  induction l with
  | nil => simp
  | cons x xs ih =>
    rw [List.foldr_cons, mem_insertEntry, ih, List.mem_cons]

theorem pairwise_specOrd (l : List Entry)
    (h : l.Pairwise (fun a b => entryLess b a = false)) : l.Pairwise specOrd := by
  refine h.imp ?_
  intro a b hab
  constructor
  · intro hfb
    by_contra hfa
    have h2 : entryLess b a = true := by
      rw [entryLess, if_pos ⟨hfb, hfa⟩]
    rw [h2] at hab
    simp at hab
  · intro hiff
    by_cases fa : a.type = folderType
    · have fb : b.type = folderType := hiff.mp fa
      rw [entryLess, if_neg (by simp [fa] : ¬(b.type = folderType ∧ ¬a.type = folderType)),
        if_neg (by simp [fb] : ¬(a.type = folderType ∧ ¬b.type = folderType))] at hab
      exact hab
    · have fb : ¬b.type = folderType := fun h2 => fa (hiff.mpr h2)
      rw [entryLess, if_neg (by simp [fb] : ¬(b.type = folderType ∧ ¬a.type = folderType)),
        if_neg (by simp [fa] : ¬(a.type = folderType ∧ ¬b.type = folderType))] at hab
      exact hab

/-! ## Lemmas: unfolding the router one branch at a time -/

theorem hasPfx_nil_dot : hasPfx [] ['.'] = false := rfl

theorem not_slashIdx_of_sfx_slash (u : List Char) (h : hasSfx u ['/'] = true) :
    hasSfx u slashIdx = false := by
  obtain ⟨w, rfl⟩ := (hasSfx_single_iff u '/').mp h
  have hsi : slashIdx = "/index.htm".toList ++ ['l'] := by decide
  rw [hsi]
  exact hasSfx_single_ne w '/' _ 'l' (by decide)

theorem route_nopfx (c : Cfg) (fs : Fs) (req : List Char)
    (h : hasPfx req c.pfx = false) :
    withIndexRoute c fs req = .notFound := by
  rw [withIndexRoute, if_pos (by simp [h])]

theorem route_expidx_branch (c : Cfg) (fs : Fs) (req : List Char)
    (hpfx : hasPfx req c.pfx = true)
    (hidx : hasSfx (urlPathOf c req) slashIdx = true)
    (hexp : c.expIdx = true) :
    withIndexRoute c fs req =
      match fs.openErr (pathJoin [c.dir, urlPathOf c req]) with
      | some .notExist => .notFound
      | some (.other m) => .internalErr m
      | none => .serveIdxFile (pathJoin [c.dir, urlPathOf c req]) := by
  rw [withIndexRoute, if_neg (by simp [hpfx]), if_pos ⟨by simp [hidx], by simp [hexp]⟩]

theorem route_file_branch (c : Cfg) (fs : Fs) (req : List Char)
    (hpfx : hasPfx req c.pfx = true)
    (hnoidx : ¬(hasSfx (urlPathOf c req) slashIdx = true ∧ c.expIdx = true))
    (hnslash : hasSfx (urlPathOf c req) ['/'] = false) :
    withIndexRoute c fs req =
      (if c.spa = true ∧ fs.statErrNotExist (pathJoin [c.dir, urlPathOf c req]) = true
        then .serveRootIdx (pathJoin [c.dir, idxName])
        else .delegate) := by
  rw [withIndexRoute, if_neg (by simp [hpfx]), if_neg hnoidx,
    if_pos (by simp [hnslash])]

theorem route_dir_branch (c : Cfg) (fs : Fs) (req : List Char) (list : List DirItem)
    (hpfx : hasPfx req c.pfx = true)
    (hslash : hasSfx (urlPathOf c req) ['/'] = true)
    (hread : fs.readDir (pathJoin [c.dir, urlPathOf c req]) = .ok list) :
    withIndexRoute c fs req =
      (if (scanEntries c.pfx (urlPathOf c req) c.dot c.expIdx list).1 = true
          ∧ ¬(c.expIdx = true)
        then .delegate
        else .listing (listingOf c (urlPathOf c req)
          (scanEntries c.pfx (urlPathOf c req) c.dot c.expIdx list).2)) := by
  have hnotidx : hasSfx (urlPathOf c req) slashIdx = false :=
    not_slashIdx_of_sfx_slash _ hslash
  rw [withIndexRoute, if_neg (by simp [hpfx]), if_neg (by simp [hnotidx]),
    if_neg (by simp [hslash]), hread]

/-! ## Lemmas: the directory scan -/

theorem scan_cons_dot (pfx u : List Char) (dot expIdx : Bool) (item : DirItem)
    (rest : List DirItem) (h : ¬ dot = true ∧ hasPfx item.name ['.'] = true) :
    scanEntries pfx u dot expIdx (item :: rest) = scanEntries pfx u dot expIdx rest := by
  rw [scanEntries, if_pos h]

theorem scan_cons_dir (pfx u : List Char) (dot expIdx : Bool) (item : DirItem)
    (rest : List DirItem) (h : ¬(¬ dot = true ∧ hasPfx item.name ['.'] = true))
    (hdir : item.isDir = true) :
    scanEntries pfx u dot expIdx (item :: rest)
      = ((scanEntries pfx u dot expIdx rest).1,
        ⟨item.name, pathJoin [pfx, u, item.name] ++ ['/'], folderType⟩
          :: (scanEntries pfx u dot expIdx rest).2) := by
  rw [scanEntries, if_neg h, if_pos (by simp [hdir])]

theorem scan_cons_idx_exp (pfx u : List Char) (dot : Bool) (item : DirItem)
    (rest : List DirItem) (h : ¬(¬ dot = true ∧ hasPfx item.name ['.'] = true))
    (hdir : item.isDir = false) (hname : item.name = idxName) :
    scanEntries pfx u dot true (item :: rest)
      = (true, ⟨item.name, pathJoin [pfx, u, item.name], fileType⟩
          :: (scanEntries pfx u dot true rest).2) := by
  rw [scanEntries, if_neg h, if_neg (by simp [hdir]), if_pos hname, if_pos rfl]

theorem scan_cons_idx_noexp (pfx u : List Char) (dot : Bool) (item : DirItem)
    (rest : List DirItem) (h : ¬(¬ dot = true ∧ hasPfx item.name ['.'] = true))
    (hdir : item.isDir = false) (hname : item.name = idxName) :
    scanEntries pfx u dot false (item :: rest) = (true, []) := by
  rw [scanEntries, if_neg h, if_neg (by simp [hdir]), if_pos hname,
    if_neg (by simp : ¬(false = true))]

theorem scan_cons_file (pfx u : List Char) (dot expIdx : Bool) (item : DirItem)
    (rest : List DirItem) (h : ¬(¬ dot = true ∧ hasPfx item.name ['.'] = true))
    (hdir : item.isDir = false) (hname : item.name ≠ idxName) :
    scanEntries pfx u dot expIdx (item :: rest)
      = ((scanEntries pfx u dot expIdx rest).1,
        ⟨item.name, pathJoin [pfx, u, item.name], fileType⟩
          :: (scanEntries pfx u dot expIdx rest).2) := by
  rw [scanEntries, if_neg h, if_neg (by simp [hdir]), if_neg hname]

theorem scanEntries_hasIdx (pfx u : List Char) (dot expIdx : Bool)
    (list : List DirItem) :
    (scanEntries pfx u dot expIdx list).1 = true
      ↔ ∃ item ∈ list, EligibleIdx dot item := by
  induction list with
  | nil =>
    rw [scanEntries]
    simp
  | cons item rest ih =>
    by_cases hdot : ¬ dot = true ∧ hasPfx item.name ['.'] = true
    · rw [scan_cons_dot pfx u dot expIdx item rest hdot, ih]
      constructor
      · rintro ⟨it, hit, helig⟩
        exact ⟨it, List.mem_cons_of_mem _ hit, helig⟩
      · rintro ⟨it, hit, helig⟩
        rcases List.mem_cons.mp hit with rfl | hit
        · rcases helig.1 with hd | hd
          · exact absurd hd hdot.1
          · rw [hdot.2] at hd
            simp at hd
        · exact ⟨it, hit, helig⟩
    · have helig_dot : dot = true ∨ hasPfx item.name ['.'] = false := by
        by_cases hd : dot = true
        · exact Or.inl hd
        · right
          cases hx : hasPfx item.name ['.'] with
          | false => rfl
          | true => exact absurd ⟨hd, hx⟩ hdot
      cases hdir : item.isDir with
      | true =>
        rw [scan_cons_dir pfx u dot expIdx item rest hdot hdir]
        rw [ih]
        constructor
        · rintro ⟨it, hit, helig⟩
          exact ⟨it, List.mem_cons_of_mem _ hit, helig⟩
        · rintro ⟨it, hit, helig⟩
          rcases List.mem_cons.mp hit with rfl | hit
          · exact absurd (hdir.symm.trans helig.2.1) (by simp)
          · exact ⟨it, hit, helig⟩
      | false =>
        by_cases hname : item.name = idxName
        · cases hexp : expIdx with
          | true =>
            rw [scan_cons_idx_exp pfx u dot item rest hdot hdir hname]
            simp only [true_iff, iff_true]
            exact ⟨item, List.mem_cons_self _ _, helig_dot, hdir, hname⟩
          | false =>
            rw [scan_cons_idx_noexp pfx u dot item rest hdot hdir hname]
            simp only [true_iff, iff_true]
            exact ⟨item, List.mem_cons_self _ _, helig_dot, hdir, hname⟩
        · rw [scan_cons_file pfx u dot expIdx item rest hdot hdir hname, ih]
          constructor
          · rintro ⟨it, hit, helig⟩
            exact ⟨it, List.mem_cons_of_mem _ hit, helig⟩
          · rintro ⟨it, hit, helig⟩
            rcases List.mem_cons.mp hit with rfl | hit
            · exact absurd helig.2.2 hname
            · exact ⟨it, hit, helig⟩

theorem mem_scanEntries (pfx u : List Char) (dot expIdx : Bool)
    (list : List DirItem) (e : Entry)
    (he : e ∈ (scanEntries pfx u dot expIdx list).2) :
    ∃ item ∈ list,
      (item.isDir = true
        ∧ e = ⟨item.name, pathJoin [pfx, u, item.name] ++ ['/'], folderType⟩)
      ∨ (item.isDir = false
        ∧ e = ⟨item.name, pathJoin [pfx, u, item.name], fileType⟩) := by
  induction list with
  | nil =>
    rw [scanEntries] at he
    simp at he
  | cons item rest ih =>
    by_cases hdot : ¬ dot = true ∧ hasPfx item.name ['.'] = true
    · rw [scan_cons_dot pfx u dot expIdx item rest hdot] at he
      obtain ⟨it, hit, hcase⟩ := ih he
      exact ⟨it, List.mem_cons_of_mem _ hit, hcase⟩
    · cases hdir : item.isDir with
      | true =>
        rw [scan_cons_dir pfx u dot expIdx item rest hdot hdir] at he
        rcases List.mem_cons.mp he with rfl | he
        · exact ⟨item, List.mem_cons_self _ _, Or.inl ⟨hdir, rfl⟩⟩
        · obtain ⟨it, hit, hcase⟩ := ih he
          exact ⟨it, List.mem_cons_of_mem _ hit, hcase⟩
      | false =>
        by_cases hname : item.name = idxName
        · cases hexp : expIdx with
          | true =>
            rw [hexp] at he ih
            rw [scan_cons_idx_exp pfx u dot item rest hdot hdir hname] at he
            rcases List.mem_cons.mp he with rfl | he
            · exact ⟨item, List.mem_cons_self _ _, Or.inr ⟨hdir, rfl⟩⟩
            · obtain ⟨it, hit, hcase⟩ := ih he
              exact ⟨it, List.mem_cons_of_mem _ hit, hcase⟩
          | false =>
            rw [hexp] at he
            rw [scan_cons_idx_noexp pfx u dot item rest hdot hdir hname] at he
            simp at he
        · rw [scan_cons_file pfx u dot expIdx item rest hdot hdir hname] at he
          rcases List.mem_cons.mp he with rfl | he
          · exact ⟨item, List.mem_cons_self _ _, Or.inr ⟨hdir, rfl⟩⟩
          · obtain ⟨it, hit, hcase⟩ := ih he
            exact ⟨it, List.mem_cons_of_mem _ hit, hcase⟩

/-! ## Claim theorems -/

/-- C5: prefix normalization (normalizePrefix run against the fixed base URL;
pure and deterministic by construction in this model) is idempotent, always
returns a path that begins and ends with a slash, and satisfies the five
concrete equations of the spec. -/
theorem c5_normalize_props :
    (∀ p, normalizePfx (normalizePfx p) = normalizePfx p) ∧
    (∀ p, hasPfx (normalizePfx p) ['/'] = true ∧ hasSfx (normalizePfx p) ['/'] = true) ∧
    normalizePfx "".toList = "/".toList ∧
    normalizePfx "foo".toList = "/foo/".toList ∧
    normalizePfx "../foo".toList = "/foo/".toList ∧
    normalizePfx "///foo///bar".toList = "/foo/bar/".toList ∧
    normalizePfx "/foo/../bar".toList = "/bar/".toList :=
  ⟨normalizePfx_idem, normalizePfx_shape,
    by decide, by decide, by decide, by decide, by decide⟩

/-- C3: a request whose path does not carry the mount path is answered 404
by the router straight away, for every configured mount path and every
filesystem (so the wrapped raw responder is never consulted). -/
theorem c3_outside_mount (c : Cfg) (fs : Fs) (req : List Char)
    (h : hasPfx req c.pfx = false) :
    withIndexRoute c fs req = .notFound
      ∧ statusOf (withIndexRoute c fs req) = some 404 := by
  have h2 := route_nopfx c fs req h
  exact ⟨h2, by rw [h2]; rfl⟩

theorem c3_witness :
    hasPfx "/x".toList cfgPfx.pfx = false
    ∧ withIndexRoute cfgPfx fsPresent "/x".toList = .notFound
    ∧ statusOf (withIndexRoute cfgPfx fsPresent "/x".toList) = some 404 :=
  ⟨by decide, c3_outside_mount cfgPfx fsPresent "/x".toList (by decide)⟩

theorem dotSegChk_of_mem (p part : List Char) (hmem : part ∈ splitSlash p)
    (hp : hasPfx part ['.'] = true) : dotSegChk p = true := by
  rw [dotSegChk, List.any_eq_true]
  exact ⟨part, hmem, hp⟩

/-- C6: with dot-serving off, any request whose slash-split path holds a
dot-led part is answered 404 by the composed handler, and the wrapped
handler — whatever it is — is never consulted (the filter sits outside the
entire router, hence before the mount check and every other branch). -/
theorem c6_dot_filter (c : Cfg) (fs : Fs) (req : List Char)
    (hdot : c.dot = false)
    (hseg : ∃ part ∈ splitSlash req, hasPfx part ['.'] = true) :
    serveH c fs req = .notFound
    ∧ (∀ next : List Char → Outcome, excludeDotH next req = .notFound)
    ∧ statusOf (serveH c fs req) = some 404 := by
  have hchk : dotSegChk req = true := by
    obtain ⟨part, hmem, hp⟩ := hseg
    exact dotSegChk_of_mem req part hmem hp
  have hnext : ∀ next : List Char → Outcome, excludeDotH next req = .notFound := by
    intro next
    rw [excludeDotH, if_pos (by simp [hchk])]
  have hserve : serveH c fs req = .notFound := by
    rw [serveH, if_neg (by simp [hdot])]
    exact hnext _
  exact ⟨hserve, hnext, by rw [hserve]; rfl⟩

theorem c6_witness :
    cfgPlain.dot = false
    ∧ (∃ part ∈ splitSlash "/.git/config".toList, hasPfx part ['.'] = true)
    ∧ serveH cfgPlain fsPresent "/.git/config".toList = .notFound
    ∧ excludeDotH (fun _ => .delegate) "/.git/config".toList = .notFound := by
  refine ⟨by decide, by decide, ?_, ?_⟩
  · exact (c6_dot_filter cfgPlain fsPresent _ (by decide) (by decide)).1
  · exact (c6_dot_filter cfgPlain fsPresent _ (by decide) (by decide)).2.1 _

/-- C10: the dot filter inspects the raw request path, mount portion
included: when dot-serving is off and the normalized mount path itself has a
dot-led part, every request whatsoever is answered 404 — requests carrying
the mount path trip the dot filter, and all others already fail the mount
check. -/
theorem c10_dot_in_mount (c : Cfg) (fs : Fs) (req : List Char)
    (hdot : c.dot = false)
    (hsfx : hasSfx c.pfx ['/'] = true)
    (hseg : ∃ part ∈ splitSlash c.pfx, hasPfx part ['.'] = true) :
    serveH c fs req = .notFound := by
  obtain ⟨part, hmem, hp⟩ := hseg
  have hpartne : part ≠ [] := by
    intro hcontra
    rw [hcontra, hasPfx_nil_dot] at hp
    simp at hp
  obtain ⟨w, hpfx_eq⟩ := (hasSfx_single_iff c.pfx '/').mp hsfx
  have hmem2 : part ∈ splitSlash w := by
    have hsplit : splitSlash (w ++ ['/']) = splitSlash w ++ [[]] := by
      have h2 := splitSlash_append w []
      simpa [splitSlash] using h2
    rw [hpfx_eq, hsplit] at hmem
    rcases List.mem_append.mp hmem with h3 | h3
    · exact h3
    · exact absurd (by simpa using h3) hpartne
  rw [serveH, if_neg (by simp [hdot]), excludeDotH]
  by_cases hchk : dotSegChk req = true
  · rw [if_pos (by simp [hchk])]
  · rw [if_neg (by simp [hchk])]
    cases hx : hasPfx req c.pfx with
    | false => exact route_nopfx c fs req hx
    | true =>
      obtain ⟨t, ht⟩ := (hasPfx_iff req c.pfx).mp hx
      exfalso
      apply hchk
      refine dotSegChk_of_mem req part ?_ hp
      rw [ht, hpfx_eq]
      have hshape : (w ++ ['/']) ++ t = w ++ '/' :: t := by simp
      rw [hshape, splitSlash_append]
      exact List.mem_append_left _ hmem2

theorem c10_witness :
    cfgDotPfx.dot = false
    ∧ hasSfx cfgDotPfx.pfx ['/'] = true
    ∧ (∃ part ∈ splitSlash cfgDotPfx.pfx, hasPfx part ['.'] = true)
    ∧ serveH cfgDotPfx fsPresent "/other/file.txt".toList = .notFound :=
  ⟨by decide, by decide, by decide,
    c10_dot_in_mount cfgDotPfx fsPresent "/other/file.txt".toList
      (by decide) (by decide) (by decide)⟩

/-- C1: for a directory request (stripped path ending in a slash) whose
directory read succeeds, the outcome is delegation to the wrapped raw
responder exactly when explicit-index mode is off and some index.html file
survives the dot filter — so the early-break scan decides exactly like
eager membership of index.html among eligible file items, independently of
scan order — and otherwise the listing built from the scan is rendered. -/
theorem c1_dir_decision (c : Cfg) (fs : Fs) (req : List Char) (list : List DirItem)
    (hpfx : hasPfx req c.pfx = true)
    (hslash : hasSfx (urlPathOf c req) ['/'] = true)
    (hread : fs.readDir (pathJoin [c.dir, urlPathOf c req]) = .ok list) :
    (withIndexRoute c fs req = .delegate
      ↔ (c.expIdx = false ∧ ∃ item ∈ list, EligibleIdx c.dot item)) ∧
    (¬(c.expIdx = false ∧ ∃ item ∈ list, EligibleIdx c.dot item) →
      withIndexRoute c fs req
        = .listing (listingOf c (urlPathOf c req)
            (scanEntries c.pfx (urlPathOf c req) c.dot c.expIdx list).2)) := by
  have hroute := route_dir_branch c fs req list hpfx hslash hread
  by_cases hcond : (scanEntries c.pfx (urlPathOf c req) c.dot c.expIdx list).1 = true
      ∧ ¬(c.expIdx = true)
  · rw [hroute, if_pos hcond]
    have hex : ∃ item ∈ list, EligibleIdx c.dot item :=
      (scanEntries_hasIdx _ _ _ _ list).mp hcond.1
    have hexp : c.expIdx = false := by
      cases hx : c.expIdx with
      | false => rfl
      | true => exact absurd hx hcond.2
    constructor
    · exact ⟨fun _ => ⟨hexp, hex⟩, fun _ => rfl⟩
    · intro hcontra
      exact absurd ⟨hexp, hex⟩ hcontra
  · rw [hroute, if_neg hcond]
    constructor
    · constructor
      · intro hcontra
        exact absurd hcontra (by simp)
      · rintro ⟨hexp, hex⟩
        exfalso
        exact hcond ⟨(scanEntries_hasIdx _ _ _ _ list).mpr hex, by simp [hexp]⟩
    · intro _
      rfl

theorem c1_witness :
    (withIndexRoute cfgPlain fsIdxDir "/".toList = .delegate
      ↔ (cfgPlain.expIdx = false ∧ ∃ item ∈ idxDirList, EligibleIdx cfgPlain.dot item))
    ∧ (¬(cfgPlain.expIdx = false ∧ ∃ item ∈ idxDirList, EligibleIdx cfgPlain.dot item) →
      withIndexRoute cfgPlain fsIdxDir "/".toList
        = .listing (listingOf cfgPlain (urlPathOf cfgPlain "/".toList)
            (scanEntries cfgPlain.pfx (urlPathOf cfgPlain "/".toList)
              cfgPlain.dot cfgPlain.expIdx idxDirList).2)) :=
  c1_dir_decision cfgPlain fsIdxDir "/".toList idxDirList
    (by decide) (by decide) rfl

/-- C2: with explicit-index mode on and a stripped path ending in
/index.html, the router opens that exact file: success streams it as 200
text/html (never a redirect), absence is a plain 404.  The statement holds
for every Spa flag value, so with SPA also enabled an absent file at such a
path still yields 404, never the root index document. -/
theorem c2_explicit_index (c : Cfg) (fs : Fs) (req : List Char)
    (hexp : c.expIdx = true)
    (hpfx : hasPfx req c.pfx = true)
    (hidx : hasSfx (urlPathOf c req) slashIdx = true) :
    (fs.openErr (pathJoin [c.dir, urlPathOf c req]) = none →
      withIndexRoute c fs req = .serveIdxFile (pathJoin [c.dir, urlPathOf c req])
        ∧ statusOf (withIndexRoute c fs req) = some 200
        ∧ ctypeOf (withIndexRoute c fs req) = some ctHtml) ∧
    (fs.openErr (pathJoin [c.dir, urlPathOf c req]) = some .notExist →
      withIndexRoute c fs req = .notFound
        ∧ statusOf (withIndexRoute c fs req) = some 404) := by
  have hroute := route_expidx_branch c fs req hpfx hidx hexp
  constructor
  · intro hopen
    rw [hroute, hopen]
    exact ⟨rfl, rfl, rfl⟩
  · intro hopen
    rw [hroute, hopen]
    exact ⟨rfl, rfl⟩

theorem c2_witness :
    (withIndexRoute cfgExp fsPresent "/sub/index.html".toList
        = .serveIdxFile (pathJoin [cfgExp.dir, urlPathOf cfgExp "/sub/index.html".toList])
      ∧ statusOf (withIndexRoute cfgExp fsPresent "/sub/index.html".toList) = some 200
      ∧ ctypeOf (withIndexRoute cfgExp fsPresent "/sub/index.html".toList) = some ctHtml)
    ∧ (withIndexRoute cfgExp fsAbsent "/sub/index.html".toList = .notFound
      ∧ statusOf (withIndexRoute cfgExp fsAbsent "/sub/index.html".toList) = some 404) :=
  ⟨(c2_explicit_index cfgExp fsPresent "/sub/index.html".toList
      (by decide) (by decide) (by decide)).1 (by decide),
   (c2_explicit_index cfgExp fsAbsent "/sub/index.html".toList
      (by decide) (by decide) (by decide)).2 (by decide)⟩

/-- C4 counterexample: the claim quantifies over every configuration with
SPA on, but with explicit-index also on, the request /sub/index.html whose
file is absent (its stripped path does not end in a slash and no filesystem
entry exists there) is answered 404 by the explicit-index branch — the root
index document is not served. -/
theorem c4_counterexample :
    cfgExp.spa = true
    ∧ hasPfx "/sub/index.html".toList cfgExp.pfx = true
    ∧ hasSfx (urlPathOf cfgExp "/sub/index.html".toList) ['/'] = false
    ∧ fsAbsent.statErrNotExist
        (pathJoin [cfgExp.dir, urlPathOf cfgExp "/sub/index.html".toList]) = true
    ∧ withIndexRoute cfgExp fsAbsent "/sub/index.html".toList = .notFound
    ∧ ¬ withIndexRoute cfgExp fsAbsent "/sub/index.html".toList
        = .serveRootIdx (pathJoin [cfgExp.dir, idxName]) := by
  decide

/-- C4 as amended: with SPA on, a request whose stripped path does not end
in a slash and which the explicit-index branch does not claim (explicit-index
off, or the path does not end in /index.html) is served the root index.html
when no filesystem entry exists at the corresponding physical path, and is
delegated to the raw responder when one does. -/
theorem c4_spa_fallback (c : Cfg) (fs : Fs) (req : List Char)
    (hspa : c.spa = true)
    (hpfx : hasPfx req c.pfx = true)
    (hnslash : hasSfx (urlPathOf c req) ['/'] = false)
    (hnotexp : ¬(hasSfx (urlPathOf c req) slashIdx = true ∧ c.expIdx = true)) :
    (fs.statErrNotExist (pathJoin [c.dir, urlPathOf c req]) = true →
      withIndexRoute c fs req = .serveRootIdx (pathJoin [c.dir, idxName])) ∧
    (fs.statErrNotExist (pathJoin [c.dir, urlPathOf c req]) = false →
      withIndexRoute c fs req = .delegate) := by
  have hroute := route_file_branch c fs req hpfx hnotexp hnslash
  constructor
  · intro hstat
    rw [hroute, if_pos ⟨hspa, hstat⟩]
  · intro hstat
    rw [hroute, if_neg]
    rintro ⟨-, h2⟩
    rw [hstat] at h2
    simp at h2

theorem c4_witness :
    withIndexRoute cfgSpa fsAbsent "/app/route".toList
        = .serveRootIdx (pathJoin [cfgSpa.dir, idxName])
    ∧ withIndexRoute cfgSpa fsPresent "/app/route".toList = .delegate :=
  ⟨(c4_spa_fallback cfgSpa fsAbsent "/app/route".toList
      (by decide) (by decide) (by decide) (by decide)).1 (by decide),
   (c4_spa_fallback cfgSpa fsPresent "/app/route".toList
      (by decide) (by decide) (by decide) (by decide)).2 (by decide)⟩

/-! ## Lemmas: resolved paths built on a normalized mount path -/

theorem foldl_step_nodd (B : List (List Char)) (hB : ∀ x ∈ B, x ≠ ['.', '.']) :
    ∀ acc, B.foldl step acc = acc ++ dropCur B := by
  induction B with
  | nil =>
    intro acc
    simp [dropCur]
  | cons b B2 ih =>
    intro acc
    have hb := hB b (List.mem_cons_self _ _)
    have hB2 : ∀ x ∈ B2, x ≠ ['.', '.'] := fun x hx => hB x (List.mem_cons_of_mem _ hx)
    rw [List.foldl_cons]
    by_cases hdot : b = ['.']
    · rw [step, if_pos hdot, ih hB2]
      simp [dropCur, hdot]
    · rw [step, if_neg hdot, if_neg hb, ih hB2]
      simp [dropCur, hdot]

theorem segs_joinSlash_filter (parts : List (List Char))
    (hns : ∀ x ∈ parts, '/' ∉ x) :
    segs (joinSlash parts) = parts.filter fun x => ¬ x.isEmpty := by
  induction parts with
  | nil => rfl
  | cons x t ih =>
    have hx := hns x (List.mem_cons_self _ _)
    have ht : ∀ z ∈ t, '/' ∉ z := fun z hz => hns z (List.mem_cons_of_mem _ hz)
    cases t with
    | nil =>
      by_cases hxe : x = []
      · subst hxe
        rfl
      · rw [show joinSlash [x] = x from rfl, segs_single x hx hxe]
        simp [List.filter, hxe]
    | cons y t2 =>
      rw [joinSlash_cons x (y :: t2) (by simp), segs_append_slash, ih ht]
      by_cases hxe : x = []
      · subst hxe
        simp [segs_nil, List.filter]
      · rw [segs_single x hx hxe]
        simp [List.filter, hxe]

theorem clean_slashed_append (pstack : List (List Char)) (hg : goodStack pstack)
    (X : List Char) (hX : ∀ x ∈ segs X, x ≠ ['.', '.']) :
    clean (slashed pstack ++ '/' :: X) = rootedOf (pstack ++ dropCur (segs X)) := by
  by_cases hps : pstack = []
  · subst hps
    have hshape : slashed ([] : List (List Char)) ++ '/' :: X = '/' :: ('/' :: X) := rfl
    rw [hshape, clean_rooted, segs_cons_slash, foldl_step_nodd (segs X) hX []]
  · have hgh : goodHalf pstack := goodHalf_of_goodStack _ hg
    have hshape : slashed pstack ++ '/' :: X
        = '/' :: ((joinSlash pstack ++ ['/']) ++ '/' :: X) := by
      rw [slashed, if_neg hps, rootedOf]
      simp
    rw [hshape, clean_rooted, segs_append_slash, segs_append_slash_nil,
      segs_joinSlash pstack hgh, List.foldl_append, foldl_step_id pstack hg [],
      List.nil_append, foldl_step_nodd (segs X) hX pstack]

theorem clean_slashed (pstack : List (List Char)) (hg : goodStack pstack) :
    clean (slashed pstack) = rootedOf pstack := by
  by_cases hps : pstack = []
  · subst hps
    rfl
  · have hgh : goodHalf pstack := goodHalf_of_goodStack _ hg
    have hshape : slashed pstack = '/' :: (joinSlash pstack ++ ['/']) := by
      rw [slashed, if_neg hps, rootedOf]
      rfl
    rw [hshape, clean_rooted, segs_append_slash_nil, segs_joinSlash pstack hgh,
      foldl_step_id pstack hg []]
    rfl

theorem hasPfx_append_both (x y z : List Char) :
    hasPfx (x ++ y) (x ++ z) = hasPfx y z := by
  induction x with
  | nil => rfl
  | cons a t ih => simp [hasPfx, ih]

theorem hasPfx_self (p : List Char) : hasPfx p p = true := by
  have h := hasPfx_append p []
  simpa using h

theorem hasPfx_append_more (s p t : List Char) (h : hasPfx s p = true) :
    hasPfx (s ++ t) p = true := by
  obtain ⟨w, rfl⟩ := (hasPfx_iff s p).mp h
  rw [List.append_assoc]
  exact hasPfx_append p (w ++ t)

theorem hasPfx_rooted_slashed (pstack rest : List (List Char)) (hrne : rest ≠ []) :
    hasPfx (rootedOf (pstack ++ rest)) (slashed pstack) = true := by
  by_cases hps : pstack = []
  · subst hps
    rw [slashed, if_pos rfl]
    exact hasPfx_cons_self '/' (joinSlash rest)
  · rw [slashed, if_neg hps, rootedOf_append pstack rest hps hrne]
    have hshape : rootedOf rest = '/' :: joinSlash rest := rfl
    rw [hshape, show rootedOf pstack ++ ['/']
        = rootedOf pstack ++ '/' :: ([] : List Char) from rfl,
      hasPfx_append_both]
    exact hasPfx_nil (joinSlash rest)

theorem rootedOf_not_sfx_slash (stack : List (List Char)) (hg : goodHalf stack)
    (hne : stack ≠ []) : hasSfx (rootedOf stack) ['/'] = false := by
  obtain ⟨w, cl, hw, hc⟩ := joinSlash_getLast_ne stack hg hne
  have hshape : rootedOf stack = ('/' :: w) ++ [cl] := by
    rw [rootedOf, hw]
    rfl
  rw [hshape]
  have h2 := hasSfx_single_ne ('/' :: w) cl [] '/' hc
  simpa using h2

theorem goodStack_append_segs (pstack : List (List Char)) (hg : goodStack pstack)
    (D : List (List Char)) (hD : ∀ x ∈ D, x ≠ [] ∧ '/' ∉ x) :
    goodHalf (pstack ++ D) := by
  intro x hx
  rcases List.mem_append.mp hx with hx | hx
  · exact ⟨(hg x hx).1, (hg x hx).2.1⟩
  · exact hD x hx

/-! ## Lemmas: inverting a rendered listing -/

theorem listing_inv (c : Cfg) (fs : Fs) (req : List Char) (d : IndexData)
    (h : withIndexRoute c fs req = .listing d) :
    ∃ list, fs.readDir (pathJoin [c.dir, urlPathOf c req]) = .ok list
      ∧ d = listingOf c (urlPathOf c req)
          (scanEntries c.pfx (urlPathOf c req) c.dot c.expIdx list).2 := by
  rw [withIndexRoute] at h
  split at h
  · simp at h
  · split at h
    · split at h <;> simp at h
    · split at h
      · split at h <;> simp at h
      · split at h
        · simp at h
        · simp at h
        · next list heq =>
          split at h
          · simp at h
          · refine ⟨list, heq, ?_⟩
            simpa using h.symm

/-- C7: every rendered listing orders folders before files and ascends by
byte-wise name within each group; away from the mount root a synthetic ".."
entry is the first element overall, and at the root no ".." entry occurs
(using that os.ReadDir never reports an item named ".."). -/
theorem c7_listing_order (c : Cfg) (fs : Fs) (req : List Char) (d : IndexData)
    (hroute : withIndexRoute c fs req = .listing d)
    (hwf : ∀ list, fs.readDir (pathJoin [c.dir, urlPathOf c req]) = .ok list →
      ∀ item ∈ list, item.name ≠ ddName) :
    (urlPathOf c req = ['/'] →
      d.entries.Pairwise specOrd ∧ ∀ e ∈ d.entries, e.name ≠ ddName) ∧
    (urlPathOf c req ≠ ['/'] →
      ∃ tail, d.entries
          = ⟨ddName, pathJoin [c.pfx, urlPathOf c req, ddName], folderType⟩ :: tail
        ∧ tail.Pairwise specOrd ∧ ∀ e ∈ tail, e.name ≠ ddName) := by
  obtain ⟨list, hread, hd⟩ := listing_inv c fs req d hroute
  subst hd
  have hnames := hwf list hread
  have hsorted : (sortEntries (scanEntries c.pfx (urlPathOf c req) c.dot c.expIdx list).2).Pairwise specOrd :=
    pairwise_specOrd _ (sortEntries_pairwise _)
  have hnm : ∀ e ∈ sortEntries (scanEntries c.pfx (urlPathOf c req) c.dot c.expIdx list).2,
      e.name ≠ ddName := by
    intro e he
    obtain ⟨item, hit, hcase⟩ := mem_scanEntries c.pfx (urlPathOf c req) c.dot c.expIdx list e
      ((mem_sortEntries _ e).mp he)
    rcases hcase with ⟨-, rfl⟩ | ⟨-, rfl⟩ <;> exact hnames item hit
  constructor
  · intro hroot
    have hent : (listingOf c (urlPathOf c req)
        (scanEntries c.pfx (urlPathOf c req) c.dot c.expIdx list).2).entries
        = sortEntries (scanEntries c.pfx (urlPathOf c req) c.dot c.expIdx list).2 := by
      simp only [listingOf]
      rw [if_neg (by simp [hroot])]
    rw [hent]
    exact ⟨hsorted, hnm⟩
  · intro hroot
    have hent : (listingOf c (urlPathOf c req)
        (scanEntries c.pfx (urlPathOf c req) c.dot c.expIdx list).2).entries
        = ⟨ddName, pathJoin [c.pfx, urlPathOf c req, ddName], folderType⟩
          :: sortEntries (scanEntries c.pfx (urlPathOf c req) c.dot c.expIdx list).2 := by
      simp only [listingOf]
      rw [if_pos hroot]
    exact ⟨sortEntries (scanEntries c.pfx (urlPathOf c req) c.dot c.expIdx list).2,
      hent, hsorted, hnm⟩

theorem c7_witness :
    List.Pairwise specOrd
        [Entry.mk "a".toList "/a/".toList folderType,
          Entry.mk "b.txt".toList "/b.txt".toList fileType]
    ∧ ∀ e ∈ [Entry.mk "a".toList "/a/".toList folderType,
          Entry.mk "b.txt".toList "/b.txt".toList fileType], e.name ≠ ddName :=
  (c7_listing_order cfgPlain fsFiles "/".toList
      ⟨"d".toList, [⟨"d".toList, "//".toList, folderType⟩],
        [⟨"a".toList, "/a/".toList, folderType⟩,
          ⟨"b.txt".toList, "/b.txt".toList, fileType⟩]⟩
      (by decide)
      (by
        intro list h
        injection h with h2
        subst h2
        decide)).1 (by decide)

/-! ## Lemmas: the exact value of entry and breadcrumb paths -/

theorem slashed_ne_nil (stack : List (List Char)) : slashed stack ≠ [] := by
  rw [slashed]
  split
  · simp
  · simp [rootedOf]

theorem mem_segs_mem_splitSlash (u x : List Char) (hx : x ∈ segs u) :
    x ∈ splitSlash u := by
  rw [segs] at hx
  exact (List.mem_filter.mp hx).1

theorem entry_path_eq (pstack : List (List Char)) (hg : goodStack pstack)
    (u name : List Char) (hXnd : ∀ x ∈ segs u, x ≠ ['.', '.'])
    (hn1 : name ≠ []) (hn2 : '/' ∉ name) (hn3 : name ≠ ['.']) (hn4 : name ≠ ['.', '.']) :
    pathJoin [slashed pstack, u, name]
      = rootedOf (pstack ++ (dropCur (segs u) ++ [name])) := by
  rw [pathJoin_three (slashed pstack) u name (slashed_ne_nil pstack)]
  have hshape : (slashed pstack ++ '/' :: u) ++ '/' :: name
      = slashed pstack ++ '/' :: (u ++ '/' :: name) := by
    simp
  rw [hshape, clean_slashed_append pstack hg (u ++ '/' :: name) ?hX]
  case hX =>
    intro x hx
    rw [segs_append_slash, segs_single name hn2 hn1] at hx
    rcases List.mem_append.mp hx with hx | hx
    · exact hXnd x hx
    · have hxn : x = name := by simpa using hx
      subst hxn
      exact hn4
  rw [segs_append_slash, segs_single name hn2 hn1]
  have hdc : dropCur (segs u ++ [name]) = dropCur (segs u) ++ [name] := by
    rw [dropCur, dropCur, List.filter_append]
    simp [List.filter, hn3]
  rw [hdc]

theorem parent_path_eq (pstack : List (List Char)) (hg : goodStack pstack)
    (parts : List (List Char)) (hns : ∀ x ∈ parts, '/' ∉ x)
    (hnd : ∀ x ∈ parts, x ≠ ['.', '.']) :
    pathJoin [slashed pstack, joinSlash parts]
      = rootedOf (pstack ++ dropCur (parts.filter fun x => ¬ x.isEmpty)) := by
  rw [pathJoin_pair (slashed pstack) (joinSlash parts) (slashed_ne_nil pstack),
    clean_slashed_append pstack hg (joinSlash parts) ?hX]
  case hX =>
    intro x hx
    rw [segs_joinSlash_filter parts hns] at hx
    exact hnd x (List.mem_filter.mp hx).1
  rw [segs_joinSlash_filter parts hns]

theorem hasPfx_rooted_slash_slashed (pstack : List (List Char)) :
    hasPfx (rootedOf pstack ++ ['/']) (slashed pstack) = true := by
  by_cases hps : pstack = []
  · subst hps
    decide
  · rw [slashed, if_neg hps]
    exact hasPfx_self _

theorem mem_parentEntriesOf (pfx base : List Char) (pp : List (List Char)) (e : Entry)
    (he : e ∈ parentEntriesOf pfx base pp) :
    ∃ i, i < pp.length
      ∧ e = ⟨if pp.getD i [] = [] then base else pp.getD i [],
          pathJoin [pfx, joinSlash (pp.take (i + 1))] ++ ['/'], folderType⟩ := by
  rw [parentEntriesOf] at he
  obtain ⟨i, hi, hei⟩ := List.mem_map.mp he
  exact ⟨i, List.mem_range.mp hi, hei.symm⟩

/-- C8 counterexample: listing the empty directory at /a/b/ under the
default mount path, the synthetic ".." entry is a folder entry whose path
/a has no trailing slash. -/
theorem c8_counterexample :
    withIndexRoute cfgPlain fsPresent "/a/b/".toList
      = .listing ⟨"d/a/b".toList,
          [⟨"d".toList, "//".toList, folderType⟩,
            ⟨"a".toList, "/a/".toList, folderType⟩,
            ⟨"b".toList, "/a/b/".toList, folderType⟩],
          [⟨ddName, "/a".toList, folderType⟩]⟩
    ∧ (Entry.mk ddName "/a".toList folderType).type = folderType
    ∧ hasSfx (Entry.mk ddName "/a".toList folderType).path ['/'] = false := by
  decide

/-- C8 as amended: in a rendered listing, every entry other than the
synthetic ".." parent has an absolute path (leading slash) that carries the
mount path and ends in a slash exactly when it is a folder entry; every
breadcrumb entry is a folder entry whose path carries the mount path and
ends in a slash.  The synthetic ".." entry itself is a folder entry whose
path is the cleaned join of mount path, stripped path and ".." and in
general lacks the trailing slash.  Hypotheses: the mount path is a
normalizePrefix output, os.ReadDir items are well-formed, and the stripped
path has no ".." parts (automatic when dot-serving is off). -/
theorem c8_entry_paths (c : Cfg) (fs : Fs) (req : List Char) (d : IndexData)
    (p0 : List Char)
    (hroute : withIndexRoute c fs req = .listing d)
    (hnorm : c.pfx = normalizePfx p0)
    (hwf : ∀ list, fs.readDir (pathJoin [c.dir, urlPathOf c req]) = .ok list →
      ∀ item ∈ list, wfItem item)
    (hnodd : ∀ part ∈ splitSlash (urlPathOf c req), part ≠ ['.', '.']) :
    (∃ tail,
      d.entries = (if urlPathOf c req ≠ ['/']
        then ⟨ddName, pathJoin [c.pfx, urlPathOf c req, ddName], folderType⟩ :: tail
        else tail)
      ∧ ∀ e ∈ tail,
          hasPfx e.path ['/'] = true
          ∧ hasPfx e.path c.pfx = true
          ∧ (hasSfx e.path ['/'] = true ↔ e.type = folderType))
    ∧ (∀ e ∈ d.parents,
        e.type = folderType
        ∧ hasPfx e.path ['/'] = true
        ∧ hasPfx e.path c.pfx = true
        ∧ hasSfx e.path ['/'] = true) := by
  obtain ⟨list, hread, hd⟩ := listing_inv c fs req d hroute
  subst hd
  have hitems := hwf list hread
  have hgs : goodStack (resolve p0) := goodStack_resolve p0
  have hpfx : c.pfx = slashed (resolve p0) := by rw [hnorm, normalizePfx_eq]
  have hXnd : ∀ x ∈ segs (urlPathOf c req), x ≠ ['.', '.'] := fun x hx =>
    hnodd x (mem_segs_mem_splitSlash _ x hx)
  have hDgood : ∀ x ∈ dropCur (segs (urlPathOf c req)), x ≠ [] ∧ '/' ∉ x := by
    intro x hx
    exact mem_segs _ x (List.mem_filter.mp hx).1
  -- the path of a scanned entry
  have hP : ∀ name, name ≠ [] → '/' ∉ name → name ≠ ['.'] → name ≠ ['.', '.'] →
      pathJoin [c.pfx, urlPathOf c req, name]
        = rootedOf (resolve p0 ++ (dropCur (segs (urlPathOf c req)) ++ [name])) := by
    intro name h1 h2 h3 h4
    rw [hpfx]
    exact entry_path_eq (resolve p0) hgs (urlPathOf c req) name hXnd h1 h2 h3 h4
  have hPprops : ∀ name, name ≠ [] → '/' ∉ name → name ≠ ['.'] → name ≠ ['.', '.'] →
      hasPfx (pathJoin [c.pfx, urlPathOf c req, name]) ['/'] = true
      ∧ hasPfx (pathJoin [c.pfx, urlPathOf c req, name]) c.pfx = true
      ∧ hasSfx (pathJoin [c.pfx, urlPathOf c req, name]) ['/'] = false := by
    intro name h1 h2 h3 h4
    rw [hP name h1 h2 h3 h4]
    refine ⟨hasPfx_cons_self '/' _, ?_, ?_⟩
    · rw [hpfx]
      exact hasPfx_rooted_slashed (resolve p0) _ (by simp)
    · refine rootedOf_not_sfx_slash _ ?_ (by simp)
      refine goodStack_append_segs (resolve p0) hgs _ ?_
      intro x hx
      rcases List.mem_append.mp hx with hx | hx
      · exact hDgood x hx
      · have hxn : x = name := by simpa using hx
        subst hxn
        exact ⟨h1, h2⟩
  refine ⟨⟨sortEntries (scanEntries c.pfx (urlPathOf c req) c.dot c.expIdx list).2, ?_, ?_⟩, ?_⟩
  · rfl
  · intro e he
    obtain ⟨item, hit, hcase⟩ := mem_scanEntries c.pfx (urlPathOf c req) c.dot c.expIdx list e
      ((mem_sortEntries _ e).mp he)
    obtain ⟨hw1, hw2, hw3, hw4⟩ := hitems item hit
    obtain ⟨hq1, hq2, hq3⟩ := hPprops item.name hw1 hw2 hw3 hw4
    rcases hcase with ⟨-, rfl⟩ | ⟨-, rfl⟩
    · exact ⟨hasPfx_append_more _ _ _ hq1, hasPfx_append_more _ _ _ hq2,
        iff_of_true (hasSfx_append_single _ _) rfl⟩
    · exact ⟨hq1, hq2, iff_of_false (by simp [hq3])
        (fun hcontra => absurd hcontra (by decide : ¬(fileType = folderType)))⟩
  · intro e he
    have hparts_ns : ∀ x ∈ (splitSlash (urlPathOf c req)).dropLast, '/' ∉ x :=
      fun x hx => mem_splitSlash_no_slash _ x (List.mem_of_mem_dropLast hx)
    have hparts_nd : ∀ x ∈ (splitSlash (urlPathOf c req)).dropLast, x ≠ ['.', '.'] :=
      fun x hx => hnodd x (List.mem_of_mem_dropLast hx)
    obtain ⟨i, hi, he2⟩ := mem_parentEntriesOf c.pfx (baseName c.dir)
      ((splitSlash (urlPathOf c req)).dropLast) e (by
        have : (listingOf c (urlPathOf c req)
            (scanEntries c.pfx (urlPathOf c req) c.dot c.expIdx list).2).parents
            = parentEntriesOf c.pfx (baseName c.dir)
              ((splitSlash (urlPathOf c req)).dropLast) := rfl
        rw [this] at he
        exact he)
    subst he2
    have htake_ns : ∀ x ∈ ((splitSlash (urlPathOf c req)).dropLast).take (i + 1), '/' ∉ x :=
      fun x hx => hparts_ns x (List.mem_of_mem_take hx)
    have htake_nd : ∀ x ∈ ((splitSlash (urlPathOf c req)).dropLast).take (i + 1),
        x ≠ ['.', '.'] := fun x hx => hparts_nd x (List.mem_of_mem_take hx)
    have hpath := parent_path_eq (resolve p0) hgs
      (((splitSlash (urlPathOf c req)).dropLast).take (i + 1)) htake_ns htake_nd
    refine ⟨rfl, ?_, ?_, hasSfx_append_single _ _⟩
    · simp only [hpfx, hpath]
      exact hasPfx_cons_self '/' _
    · simp only [hpfx, hpath]
      by_cases hrest :
          dropCur ((((splitSlash (urlPathOf c req)).dropLast).take (i + 1)).filter
            fun x => ¬ x.isEmpty) = []
      · rw [hrest, List.append_nil]
        exact hasPfx_rooted_slash_slashed (resolve p0)
      · exact hasPfx_append_more _ _ _ (hasPfx_rooted_slashed (resolve p0) _ hrest)

theorem c8_witness :
    (∃ tail,
      c8Data.entries = (if urlPathOf cfgPfx "/p/sub/".toList ≠ ['/']
        then ⟨ddName, pathJoin [cfgPfx.pfx, urlPathOf cfgPfx "/p/sub/".toList, ddName],
          folderType⟩ :: tail
        else tail)
      ∧ ∀ e ∈ tail,
          hasPfx e.path ['/'] = true
          ∧ hasPfx e.path cfgPfx.pfx = true
          ∧ (hasSfx e.path ['/'] = true ↔ e.type = folderType))
    ∧ (∀ e ∈ c8Data.parents,
        e.type = folderType
        ∧ hasPfx e.path ['/'] = true
        ∧ hasPfx e.path cfgPfx.pfx = true
        ∧ hasSfx e.path ['/'] = true) :=
  c8_entry_paths cfgPfx fsFiles "/p/sub/".toList c8Data "/p/".toList
    (by decide) (by decide)
    (by
      intro list h
      injection h with h2
      subst h2
      intro item hit
      rcases List.mem_cons.mp hit with rfl | hit
      · exact ⟨by decide, by decide, by decide, by decide⟩
      · rcases List.mem_cons.mp hit with rfl | hit
        · exact ⟨by decide, by decide, by decide, by decide⟩
        · simp at hit)
    (by decide)

/-! ## Lemmas: the breadcrumb sequence -/

theorem parentEntriesOf_length (pfx base : List Char) (pp : List (List Char)) :
    (parentEntriesOf pfx base pp).length = pp.length := by
  simp [parentEntriesOf]

theorem parentEntriesOf_get (pfx base : List Char) (pp : List (List Char)) (i : Nat)
    (hi : i < (parentEntriesOf pfx base pp).length) :
    (parentEntriesOf pfx base pp).get ⟨i, hi⟩
      = ⟨if pp.getD i [] = [] then base else pp.getD i [],
        pathJoin [pfx, joinSlash (pp.take (i + 1))] ++ ['/'], folderType⟩ := by
  unfold parentEntriesOf
  rw [List.get_eq_getElem, List.getElem_map, List.getElem_range]

/-- C9 counterexample: listing /a/ under the default mount path /, the root
breadcrumb entry has path // (path.Join of the prefix and the empty
cumulative string, plus a slash) while the cumulative prefix up to the root
segment, with trailing slash, is /. -/
theorem c9_counterexample :
    withIndexRoute cfgPlain fsPresent "/a/".toList
      = .listing ⟨"d/a".toList,
          [⟨"d".toList, "//".toList, folderType⟩,
            ⟨"a".toList, "/a/".toList, folderType⟩],
          [⟨ddName, "/".toList, folderType⟩]⟩
    ∧ cfgPlain.pfx = "/".toList
    ∧ "//".toList ≠ "/".toList := by
  decide

/-- C9 as amended: every rendered listing's breadcrumb sequence has exactly
one entry per part of the slash-split stripped path minus its final part,
ordered root-first.  The root entry is labeled with the base name of the
physical root directory and its path is Clean(prefix) + / (which is //
under the default prefix / and the prefix itself otherwise); every later
entry is labeled with its part and its path is the mount prefix followed by
the cumulative segments joined by slashes, with a trailing slash —
provided the intermediate parts are plain names (nonempty, not . or ..). -/
theorem c9_breadcrumbs (c : Cfg) (fs : Fs) (req : List Char) (d : IndexData)
    (p0 : List Char)
    (hroute : withIndexRoute c fs req = .listing d)
    (hnorm : c.pfx = normalizePfx p0)
    (hparts : ∀ part ∈ ((splitSlash (urlPathOf c req)).dropLast).drop 1,
        part ≠ [] ∧ part ≠ ['.'] ∧ part ≠ ['.', '.']) :
    d.parents.length = ((splitSlash (urlPathOf c req)).dropLast).length
    ∧ ∀ i, ∀ hi : i < d.parents.length,
        (d.parents.get ⟨i, hi⟩).type = folderType
        ∧ (i = 0 → (d.parents.get ⟨i, hi⟩).name = baseName c.dir
            ∧ (d.parents.get ⟨i, hi⟩).path = clean c.pfx ++ ['/'])
        ∧ (0 < i → (d.parents.get ⟨i, hi⟩).name
              = ((splitSlash (urlPathOf c req)).dropLast).getD i []
            ∧ (d.parents.get ⟨i, hi⟩).path
              = c.pfx ++ joinSlash (((splitSlash (urlPathOf c req)).dropLast.drop 1).take i)
                ++ ['/']) := by
  obtain ⟨list, hread, hd⟩ := listing_inv c fs req d hroute
  subst hd
  have hgs : goodStack (resolve p0) := goodStack_resolve p0
  have hpfx : c.pfx = slashed (resolve p0) := by rw [hnorm, normalizePfx_eq]
  have hpfxne : c.pfx ≠ [] := by rw [hpfx]; exact slashed_ne_nil _
  obtain ⟨L0, L1, hLeq⟩ : ∃ a l, splitSlash (trimPfx req c.pfx) = a :: l := by
    cases hx : splitSlash (trimPfx req c.pfx) with
    | nil => exact absurd hx (splitSlash_ne_nil _)
    | cons a l => exact ⟨a, l, rfl⟩
  have hsplit : splitSlash (urlPathOf c req)
      = [] :: L0 :: L1 := by
    rw [show urlPathOf c req = '/' :: trimPfx req c.pfx from rfl]
    simp [splitSlash, hLeq]
  have hpp : (splitSlash (urlPathOf c req)).dropLast
      = [] :: (L0 :: L1).dropLast := by
    rw [hsplit]
    rfl
  have hdrop1 : ((splitSlash (urlPathOf c req)).dropLast).drop 1
      = (L0 :: L1).dropLast := by
    rw [hpp]
    rfl
  have hparents : (listingOf c (urlPathOf c req)
      (scanEntries c.pfx (urlPathOf c req) c.dot c.expIdx list).2).parents
      = parentEntriesOf c.pfx (baseName c.dir)
        ((splitSlash (urlPathOf c req)).dropLast) := rfl
  rw [hparents] at *
  refine ⟨parentEntriesOf_length _ _ _, ?_⟩
  intro i hi
  have hi2 : i < ((splitSlash (urlPathOf c req)).dropLast).length := by
    rw [← parentEntriesOf_length c.pfx (baseName c.dir)]
    exact hi
  rw [parentEntriesOf_get c.pfx (baseName c.dir) _ i hi]
  refine ⟨rfl, ?_, ?_⟩
  · rintro rfl
    have hget0 : ((splitSlash (urlPathOf c req)).dropLast).getD 0 [] = [] := by
      rw [hpp]
      rfl
    have htake1 : ((splitSlash (urlPathOf c req)).dropLast).take 1 = [[]] := by
      rw [hpp]
      rfl
    refine ⟨by rw [hget0]; simp, ?_⟩
    rw [htake1]
    have hjs : joinSlash [[]] = [] := rfl
    rw [hjs, pathJoin_pair c.pfx [] hpfxne]
    have hclean : clean (c.pfx ++ '/' :: []) = rootedOf (resolve p0) := by
      rw [hpfx, clean_slashed_append (resolve p0) hgs [] (by intro x hx; simp [segs_nil] at hx)]
      simp [dropCur, segs_nil]
    rw [hclean, hpfx, clean_slashed (resolve p0) hgs]
  · intro hipos
    have hreal : ∀ part ∈ (L0 :: L1).dropLast,
        part ≠ [] ∧ part ≠ ['.'] ∧ part ≠ ['.', '.'] := by
      intro part hp
      exact hparts part (by rw [hdrop1]; exact hp)
    have hgetd : ((splitSlash (urlPathOf c req)).dropLast).getD i []
        = ((L0 :: L1).dropLast).getD (i - 1) [] := by
      rw [hpp]
      cases i with
      | zero => omega
      | succ j => simp
    have hilen : i - 1 < ((L0 :: L1).dropLast).length := by
      rw [hpp] at hi2
      simp only [List.length_cons] at hi2
      omega
    have hgetmem : ((L0 :: L1).dropLast).getD (i - 1) [] ∈ (L0 :: L1).dropLast := by
      rw [List.getD_eq_getElem _ _ hilen]
      exact List.getElem_mem hilen
    obtain ⟨hne, hndot, hndd⟩ := hreal _ hgetmem
    have htake : ((splitSlash (urlPathOf c req)).dropLast).take (i + 1)
        = [] :: ((L0 :: L1).dropLast).take i := by
      rw [hpp]
      cases i with
      | zero => omega
      | succ j => simp
    have hl_ne : ((L0 :: L1).dropLast).take i ≠ [] := by
      have hlen2 : (((L0 :: L1).dropLast).take i).length = i := by
        rw [List.length_take]
        omega
      intro hcontra
      rw [hcontra] at hlen2
      simp at hlen2
      omega
    have hl_ns : ∀ x ∈ ((L0 :: L1).dropLast).take i, '/' ∉ x := by
      intro x hx
      have hx2 : x ∈ L0 :: L1 := List.mem_of_mem_dropLast (List.mem_of_mem_take hx)
      rw [← hLeq] at hx2
      exact mem_splitSlash_no_slash _ x hx2
    have hl_good : ∀ x ∈ ((L0 :: L1).dropLast).take i,
        x ≠ [] ∧ x ≠ ['.'] ∧ x ≠ ['.', '.'] :=
      fun x hx => hreal x (List.mem_of_mem_take hx)
    have hne2 : ((splitSlash (urlPathOf c req)).dropLast).getD i [] ≠ [] := by
      rw [hgetd]
      exact hne
    refine ⟨by rw [if_neg hne2], ?_⟩
    rw [htake, hdrop1, joinSlash_cons [] _ hl_ne, List.nil_append,
      pathJoin_pair c.pfx _ hpfxne]
    have hX : clean (c.pfx ++ '/' :: ('/' :: joinSlash (((L0 :: L1).dropLast).take i)))
        = rootedOf (resolve p0 ++ ((L0 :: L1).dropLast).take i) := by
      rw [hpfx, clean_slashed_append (resolve p0) hgs
        ('/' :: joinSlash (((L0 :: L1).dropLast).take i)) ?hnd]
      case hnd =>
        intro x hx
        rw [segs_cons_slash, segs_joinSlash_filter _ hl_ns] at hx
        exact (hl_good x (List.mem_filter.mp hx).1).2.2
      rw [segs_cons_slash, segs_joinSlash_filter _ hl_ns]
      have hfilter : (((L0 :: L1).dropLast).take i).filter (fun x => ¬ x.isEmpty)
          = ((L0 :: L1).dropLast).take i := by
        rw [List.filter_eq_self]
        intro a ha
        simpa using (hl_good a ha).1
      have hdc : dropCur (((L0 :: L1).dropLast).take i) = ((L0 :: L1).dropLast).take i := by
        rw [dropCur, List.filter_eq_self]
        intro a ha
        simp [(hl_good a ha).2.1]
      rw [hfilter, hdc]
    rw [hX]
    by_cases hps : resolve p0 = []
    · rw [hps, List.nil_append, hpfx, hps]
      simp [slashed, rootedOf]
    · rw [rootedOf_append (resolve p0) _ hps hl_ne, hpfx, slashed, if_neg hps]
      simp [rootedOf]

theorem c9h0 : 0 < c9d.parents.length := by decide

theorem c9h1 : 1 < c9d.parents.length := by decide

theorem c9_witness :
    c9d.parents.length = ((splitSlash (urlPathOf cfgPfx "/p/a/".toList)).dropLast).length
    ∧ (c9d.parents.get ⟨0, c9h0⟩).name = baseName cfgPfx.dir
    ∧ (c9d.parents.get ⟨0, c9h0⟩).path = clean cfgPfx.pfx ++ ['/']
    ∧ (c9d.parents.get ⟨1, c9h1⟩).path
        = cfgPfx.pfx
          ++ joinSlash ((((splitSlash (urlPathOf cfgPfx "/p/a/".toList)).dropLast).drop 1).take 1)
          ++ ['/'] := by
  have h := c9_breadcrumbs cfgPfx fsPresent "/p/a/".toList c9d "/p/".toList
    (by decide) (by decide) (by decide)
  exact ⟨h.1, ((h.2 0 c9h0).2.1 rfl).1, ((h.2 0 c9h0).2.1 rfl).2,
    ((h.2 1 c9h1).2.2 (by omega)).2⟩

end Serve
